import Mathlib

/-!
Verification development for the Frameify poster-rendering core.

The definitions below are shallow embeddings of the TypeScript sources:
  * `src/test.ts` — `BlurredAlbumCoverBackground` (box-blur engine,
    `boxesForGaussian`) and a variant of `AlbumColorPaletteBackground`;
  * `src/src/core/background-modes.ts` — the background strategy classes;
  * `src/src/designs/album-1.ts` — the two-column track listing;
  * canvas/color utilities (`truncateText`, `extractColorPalette`).

JavaScript numbers are modelled as exact rationals; `NaN` (arising from
out-of-bounds typed-array reads, i.e. `undefined` entering arithmetic) is
modelled as `Option.none`; `Infinity`/`NaN` from division by zero is modelled
by the small `JVal` type.  `Uint8ClampedArray` stores are modelled by
`clampByteQ` (clamp to [0,255], round half to even, `NaN` stored as 0), and
out-of-range typed-array writes are ignored, exactly as `List.set` does.
-/

namespace Frameify

/-- JavaScript `Math.round`: round to nearest, half toward `+∞`. -/
def jsRound (q : ℚ) : ℤ := ⌊q + 1/2⌋

/-- Floor of the square root of a nonnegative rational:
`⌊√(a/b)⌋ = ⌊√(a·b)⌋ / b`.  Models the exact value of
`Math.floor(Math.sqrt q)`. -/
def ratFloorSqrt (q : ℚ) : ℕ := Nat.sqrt (q.num.toNat * q.den) / q.den

/-- `wIdeal = Math.sqrt((12 * sigma * sigma / n) + 1)` from
`boxesForGaussian` (`src/test.ts` line 870), before taking the square root. -/
def bfgWIdeal (sigma : ℚ) (n : ℕ) : ℚ := 12 * sigma * sigma / n + 1

/-- `wl` from `boxesForGaussian` (`src/test.ts` lines 871–872):
`Math.floor(wIdeal)`, decremented once if even. -/
def bfgWl (sigma : ℚ) (n : ℕ) : ℕ :=
  let wl0 := ratFloorSqrt (bfgWIdeal sigma n)
  if wl0 % 2 = 0 then wl0 - 1 else wl0

/-- `mIdeal` from `boxesForGaussian` (`src/test.ts` line 875). -/
def bfgMIdeal (sigma : ℚ) (n : ℕ) : ℚ :=
  (12 * sigma * sigma - (n : ℚ) * (bfgWl sigma n) * (bfgWl sigma n)
      - 4 * (n : ℚ) * (bfgWl sigma n) - 3 * n) /
    (-4 * (bfgWl sigma n : ℚ) - 4)

/-- `boxesForGaussian` from `src/test.ts` (lines 869–883): the box radii used
to approximate a Gaussian blur of standard deviation `sigma` by `n` box-blur
passes. -/
def boxesForGaussian (sigma : ℚ) (n : ℕ) : List ℕ :=
  let wl : ℕ := bfgWl sigma n
  let wu : ℕ := wl + 2
  let m : ℤ := jsRound (bfgMIdeal sigma n)
  let sizes : List ℕ := (List.range n).map (fun i => if (i : ℤ) < m then wl else wu)
  sizes.map (fun s => (s - 1) / 2)

/-! ### Correctness of `ratFloorSqrt` -/

theorem ratFloorSqrt_sq_le (q : ℚ) (h : 0 ≤ q) :
    ((ratFloorSqrt q : ℚ)) ^ 2 ≤ q := by
  have hbQ : (0 : ℚ) < (q.den : ℚ) := by exact_mod_cast q.pos
  have hnum' : (q.num.toNat : ℤ) = q.num := Int.toNat_of_nonneg (Rat.num_nonneg.mpr h)
  have hnum : ((q.num.toNat : ℕ) : ℚ) = (q.num : ℚ) := by exact_mod_cast hnum'
  have hqb : q * (q.den : ℚ) = (q.num : ℚ) := by
    have hd : ((q.den : ℚ)) ≠ 0 := by exact_mod_cast q.den_nz
    have h2 := Rat.num_div_den q
    rw [div_eq_iff hd] at h2
    linarith [h2]
  have h1 : ratFloorSqrt q * q.den ≤ Nat.sqrt (q.num.toNat * q.den) :=
    Nat.div_mul_le_self _ _
  have h2 : Nat.sqrt (q.num.toNat * q.den) ^ 2 ≤ q.num.toNat * q.den :=
    Nat.sqrt_le' _
  have h3 : (ratFloorSqrt q * q.den) ^ 2 ≤ q.num.toNat * q.den :=
    le_trans (Nat.pow_le_pow_left h1 2) h2
  have h3Q : ((ratFloorSqrt q : ℚ) * q.den) ^ 2 ≤ (q.num.toNat : ℚ) * q.den := by
    exact_mod_cast h3
  rw [hnum, ← hqb] at h3Q
  nlinarith [h3Q, hbQ, mul_pos hbQ hbQ]

theorem lt_ratFloorSqrt_add_one_sq (q : ℚ) (h : 0 ≤ q) :
    q < ((ratFloorSqrt q : ℚ) + 1) ^ 2 := by
  have hbpos : 0 < q.den := q.pos
  have hbQ : (0 : ℚ) < (q.den : ℚ) := by exact_mod_cast hbpos
  have hnum' : (q.num.toNat : ℤ) = q.num := Int.toNat_of_nonneg (Rat.num_nonneg.mpr h)
  have hnum : ((q.num.toNat : ℕ) : ℚ) = (q.num : ℚ) := by exact_mod_cast hnum'
  have hqb : q * (q.den : ℚ) = (q.num : ℚ) := by
    have hd : ((q.den : ℚ)) ≠ 0 := by exact_mod_cast q.den_nz
    have h2 := Rat.num_div_den q
    rw [div_eq_iff hd] at h2
    linarith [h2]
  have h1 : Nat.sqrt (q.num.toNat * q.den) < (ratFloorSqrt q + 1) * q.den := by
    have h5 := Nat.div_add_mod (Nat.sqrt (q.num.toNat * q.den)) q.den
    have h6 : Nat.sqrt (q.num.toNat * q.den) % q.den < q.den := Nat.mod_lt _ hbpos
    calc Nat.sqrt (q.num.toNat * q.den)
        = q.den * (Nat.sqrt (q.num.toNat * q.den) / q.den)
            + Nat.sqrt (q.num.toNat * q.den) % q.den := h5.symm
      _ < q.den * (Nat.sqrt (q.num.toNat * q.den) / q.den) + q.den :=
            Nat.add_lt_add_left h6 _
      _ = (Nat.sqrt (q.num.toNat * q.den) / q.den + 1) * q.den := by ring
      _ = (ratFloorSqrt q + 1) * q.den := rfl
  have h2 : q.num.toNat * q.den < (Nat.sqrt (q.num.toNat * q.den) + 1) ^ 2 :=
    Nat.lt_succ_sqrt' _
  have h3 : q.num.toNat * q.den < ((ratFloorSqrt q + 1) * q.den) ^ 2 :=
    lt_of_lt_of_le h2 (Nat.pow_le_pow_left h1 2)
  have h3Q : (q.num.toNat : ℚ) * q.den < (((ratFloorSqrt q : ℚ) + 1) * q.den) ^ 2 := by
    exact_mod_cast h3
  rw [hnum, ← hqb] at h3Q
  nlinarith [h3Q, hbQ, mul_pos hbQ hbQ]

/-! ### C1: `boxesForGaussian` -/

theorem bfg_list_shape (wl : ℕ) (m : ℤ) (h0 : 0 ≤ m) (h3 : m ≤ 3) :
    ((List.range 3).map (fun i => if (i : ℤ) < m then wl else wl + 2)).map
        (fun s => (s - 1) / 2) =
      List.replicate m.toNat ((wl - 1) / 2) ++
        List.replicate (3 - m.toNat) ((wl + 2 - 1) / 2) := by
  interval_cases m <;> simp [List.range_succ]

/-- **C1.** For every positive `sigma`, `boxesForGaussian sigma 3` returns
exactly three box radii: `wl` is the largest odd integer not exceeding
`√(12·sigma²/3 + 1)` (characterized by `Odd wl`, `wl² ≤ 12σ²/3+1 < (wl+2)²`,
together with maximality over odd integers), `wu = wl + 2`,
`m` is the integer nearest to `(12σ² − 3wl² − 12wl − 9)/(−4wl − 4)`
(JavaScript rounding, half up), and the returned list is `(wl−1)/2` repeated
for the first `m` entries followed by `(wu−1)/2` for the remaining `3 − m`
entries. -/
theorem boxesForGaussian_three_radii (sigma : ℚ) (h : 0 < sigma) :
    ∃ wl m : ℕ,
      Odd wl ∧
      ((wl : ℚ)) ^ 2 ≤ 12 * sigma ^ 2 / 3 + 1 ∧
      12 * sigma ^ 2 / 3 + 1 < ((wl : ℚ) + 2) ^ 2 ∧
      (∀ k : ℕ, Odd k → ((k : ℚ)) ^ 2 ≤ 12 * sigma ^ 2 / 3 + 1 → k ≤ wl) ∧
      (m : ℤ) = jsRound ((12 * sigma ^ 2 - 3 * (wl : ℚ) ^ 2 - 12 * wl - 9) /
        (-4 * (wl : ℚ) - 4)) ∧
      m ≤ 3 ∧
      boxesForGaussian sigma 3 =
        List.replicate m ((wl - 1) / 2) ++ List.replicate (3 - m) ((wl + 2 - 1) / 2) := by
  have hxeq : bfgWIdeal sigma 3 = 12 * sigma ^ 2 / 3 + 1 := by
    unfold bfgWIdeal; push_cast; ring
  have hx0 : (0 : ℚ) ≤ bfgWIdeal sigma 3 := by rw [hxeq]; positivity
  have hx1 : (1 : ℚ) < bfgWIdeal sigma 3 := by
    rw [hxeq]; nlinarith [sq_nonneg sigma, h]
  have hle : ((ratFloorSqrt (bfgWIdeal sigma 3) : ℚ)) ^ 2 ≤ bfgWIdeal sigma 3 :=
    ratFloorSqrt_sq_le _ hx0
  have hlt : bfgWIdeal sigma 3 < ((ratFloorSqrt (bfgWIdeal sigma 3) : ℚ) + 1) ^ 2 :=
    lt_ratFloorSqrt_add_one_sq _ hx0
  have hwl0pos : 1 ≤ ratFloorSqrt (bfgWIdeal sigma 3) := by
    by_contra h0
    push_neg at h0
    have hz : ratFloorSqrt (bfgWIdeal sigma 3) = 0 := by omega
    rw [hz] at hlt
    norm_num at hlt
    linarith
  set wl0 := ratFloorSqrt (bfgWIdeal sigma 3) with hwl0def
  have hwldef : bfgWl sigma 3 = if wl0 % 2 = 0 then wl0 - 1 else wl0 := rfl
  set wl := bfgWl sigma 3 with hwl
  have hodd : wl % 2 = 1 := by rw [hwldef]; split <;> omega
  have hwl1 : 1 ≤ wl := by rw [hwldef]; split <;> omega
  have hwlle : wl ≤ wl0 := by rw [hwldef]; split <;> omega
  have hwlge : wl0 ≤ wl + 1 := by rw [hwldef]; split <;> omega
  have hle' : ((wl : ℚ)) ^ 2 ≤ bfgWIdeal sigma 3 := by
    refine le_trans ?_ hle
    have : (wl : ℚ) ≤ (wl0 : ℚ) := by exact_mod_cast hwlle
    have hnn : (0 : ℚ) ≤ (wl : ℚ) := by positivity
    nlinarith [this, hnn]
  have hlt' : bfgWIdeal sigma 3 < ((wl : ℚ) + 2) ^ 2 := by
    refine lt_of_lt_of_le hlt ?_
    have : (wl0 : ℚ) + 1 ≤ (wl : ℚ) + 2 := by
      have : (wl0 : ℚ) ≤ (wl : ℚ) + 1 := by exact_mod_cast hwlge
      linarith
    have hnn : (0 : ℚ) ≤ (wl0 : ℚ) + 1 := by positivity
    nlinarith [this, hnn]
  -- maximality among odd integers
  have hmax : ∀ k : ℕ, Odd k → ((k : ℚ)) ^ 2 ≤ 12 * sigma ^ 2 / 3 + 1 → k ≤ wl := by
    intro k hk hk2
    rw [← hxeq] at hk2
    by_contra hgt
    push_neg at hgt
    have hk1 : k % 2 = 1 := Nat.odd_iff.mp hk
    have hge : wl + 2 ≤ k := by omega
    have hgeQ : ((wl : ℚ)) + 2 ≤ (k : ℚ) := by exact_mod_cast hge
    have hnn : (0 : ℚ) ≤ (wl : ℚ) + 2 := by positivity
    nlinarith [hk2, hlt', hgeQ, hnn]
  -- bounds on mIdeal
  have hW1 : (1 : ℚ) ≤ (wl : ℚ) := by exact_mod_cast hwl1
  have hDneg : (-4 * (wl : ℚ) - 4) < 0 := by linarith
  have hmIeq : bfgMIdeal sigma 3 =
      (12 * sigma ^ 2 - 3 * (wl : ℚ) ^ 2 - 12 * (wl : ℚ) - 9) / (-4 * (wl : ℚ) - 4) := by
    unfold bfgMIdeal
    rw [← hwl]
    push_cast
    ring_nf
  have hxval : bfgWIdeal sigma 3 = 4 * sigma ^ 2 + 1 := by rw [hxeq]; ring
  have hNneg : 12 * sigma ^ 2 - 3 * (wl : ℚ) ^ 2 - 12 * (wl : ℚ) - 9 < 0 := by
    rw [hxval] at hlt'
    nlinarith [hlt']
  have hNge : 3 * (-4 * (wl : ℚ) - 4) ≤
      12 * sigma ^ 2 - 3 * (wl : ℚ) ^ 2 - 12 * (wl : ℚ) - 9 := by
    rw [hxval] at hle'
    nlinarith [hle']
  have hmIpos : 0 < bfgMIdeal sigma 3 := by
    rw [hmIeq]
    exact div_pos_of_neg_of_neg hNneg hDneg
  have hmIle3 : bfgMIdeal sigma 3 ≤ 3 := by
    rw [hmIeq, div_le_iff_of_neg hDneg]
    linarith [hNge]
  have hm0 : 0 ≤ jsRound (bfgMIdeal sigma 3) := by
    unfold jsRound
    rw [Int.le_floor]
    push_cast
    linarith [hmIpos]
  have hm3 : jsRound (bfgMIdeal sigma 3) ≤ 3 := by
    unfold jsRound
    have : ⌊bfgMIdeal sigma 3 + 1 / 2⌋ < 4 := by
      rw [Int.floor_lt]
      push_cast
      linarith [hmIle3]
    omega
  refine ⟨wl, (jsRound (bfgMIdeal sigma 3)).toNat, Nat.odd_iff.mpr hodd,
    by rw [← hxeq]; exact hle', by rw [← hxeq]; exact hlt', hmax, ?_, ?_, ?_⟩
  · rw [Int.toNat_of_nonneg hm0, hmIeq]
  · omega
  · show boxesForGaussian sigma 3 = _
    unfold boxesForGaussian
    rw [← hwl]
    exact bfg_list_shape wl _ hm0 hm3

/-- Witness for C1 at `sigma = 2`. -/
theorem boxesForGaussian_three_radii_witness :
    (0 : ℚ) < 2 ∧
      (∃ wl m : ℕ,
        Odd wl ∧
        ((wl : ℚ)) ^ 2 ≤ 12 * (2 : ℚ) ^ 2 / 3 + 1 ∧
        12 * (2 : ℚ) ^ 2 / 3 + 1 < ((wl : ℚ) + 2) ^ 2 ∧
        (∀ k : ℕ, Odd k → ((k : ℚ)) ^ 2 ≤ 12 * (2 : ℚ) ^ 2 / 3 + 1 → k ≤ wl) ∧
        (m : ℤ) = jsRound ((12 * (2 : ℚ) ^ 2 - 3 * (wl : ℚ) ^ 2 - 12 * wl - 9) /
          (-4 * (wl : ℚ) - 4)) ∧
        m ≤ 3 ∧
        boxesForGaussian 2 3 =
          List.replicate m ((wl - 1) / 2) ++ List.replicate (3 - m) ((wl + 2 - 1) / 2)) :=
  ⟨by norm_num, boxesForGaussian_three_radii 2 (by norm_num)⟩

/-! ## Background rendering strategies
(`src/src/core/background-modes.ts`, and the variant copy in `src/test.ts`)

`render` calls are embedded as functions producing the list of drawing
operations issued to the canvas context.  A `fillRect` with a gradient fill
style records the gradient's geometry and its color stops in the order they
were added via `addColorStop`. -/

/-- The `style` option of `AlbumColorPaletteBackground`. -/
inductive GradStyle where
  | smooth : GradStyle
  | emphasized : GradStyle
deriving DecidableEq

/-- The `direction` option of `AlbumColorPaletteBackground`. -/
inductive GradDirection where
  | lightToDark : GradDirection
  | darkToLight : GradDirection
deriving DecidableEq

/-- A JavaScript double restricted to the values arising in gradient stop
computations: a finite (exactly represented) value, `Infinity`, or `NaN`.
Only nonnegative finite values occur at the call sites embedded here, so the
negative-infinity case is omitted. -/
inductive JVal where
  | fin : ℚ → JVal
  | inf : JVal
  | nan : JVal
deriving DecidableEq

/-- JavaScript division `a / b` (for nonnegative `a`): division by zero gives
`Infinity` (or `NaN` for `0 / 0`). -/
def jdiv (a b : ℚ) : JVal :=
  if b = 0 then (if a = 0 then .nan else .inf) else .fin (a / b)

/-- JavaScript multiplication on `JVal` (for nonnegative finite operands):
`0 * Infinity = NaN`. -/
def jmul (a b : JVal) : JVal :=
  match a, b with
  | .fin x, .fin y => .fin (x * y)
  | .fin x, .inf => if x = 0 then .nan else .inf
  | .inf, .fin x => if x = 0 then .nan else .inf
  | .inf, .inf => .inf
  | _, _ => .nan

/-- Is a gradient stop position a valid fraction in `[0, 1]`?
(`CanvasGradient.addColorStop` rejects anything else at render time.) -/
def validStopB (v : JVal) : Bool :=
  match v with
  | .fin q => decide (0 ≤ q) && decide (q ≤ 1)
  | _ => false

/-- A canvas fill style: a plain color string, or a linear gradient with its
geometry and ordered color stops. -/
inductive FillStyle where
  | color : String → FillStyle
  | linearGradient : ℚ → ℚ → ℚ → ℚ → List (JVal × String) → FillStyle
deriving DecidableEq

/-- A drawing operation issued by a background `render`. -/
inductive DrawOp where
  | fillRect : FillStyle → ℚ → ℚ → ℚ → ℚ → DrawOp
deriving DecidableEq

/-- The color stops of an operation's gradient fill (`[]` for plain fills). -/
def stopsOf (op : DrawOp) : List (JVal × String) :=
  match op with
  | .fillRect (.linearGradient _ _ _ _ stops) _ _ _ _ => stops
  | _ => []

/-- `GradientTopBackground`'s constructor (`background-modes.ts` lines 58–64):
throws unless at least two colors are supplied. -/
def gradientTopCtor (colors : List String) : Except String (List String) :=
  if colors.length < 2 then .error "Gradient requires at least 2 colors" else .ok colors

/-- `GradientBottomBackground`'s constructor (lines 87–93). -/
def gradientBottomCtor (colors : List String) : Except String (List String) :=
  if colors.length < 2 then .error "Gradient requires at least 2 colors" else .ok colors

/-- `CustomGradientBackground`'s constructor (lines 116–125). -/
def customGradientCtor (colorStops : List (ℚ × String)) :
    Except String (List (ℚ × String)) :=
  if colorStops.length < 2 then .error "Gradient requires at least 2 color stops"
  else .ok colorStops

/-- `RadialGradientBackground`'s constructor (lines 159–169). -/
def radialGradientCtor (colors : List String) : Except String (List String) :=
  if colors.length < 2 then .error "Gradient requires at least 2 colors" else .ok colors

/-- `AlbumColorPaletteBackground`'s constructor (lines 235–242): stores its
arguments and performs no validation at all. -/
def albumPaletteCtor (extractedColors : List String) (_style : GradStyle)
    (_direction : GradDirection) : Except String (List String) :=
  .ok extractedColors

/-- The gradient stops built by `AlbumColorPaletteBackground.render` in
`src/src/core/background-modes.ts` (lines 259–290) for a nonempty palette,
after the direction-dependent reversal. -/
def albumPaletteStops (colors : List String) (style : GradStyle)
    (direction : GradDirection) : List (JVal × String) :=
  match style with
  | .emphasized =>
    match direction with
    | .lightToDark =>
      [(JVal.fin 0, colors.getD 0 "")] ++
      (if 1 < colors.length then [(JVal.fin (1/10), colors.getD 1 "")] else []) ++
      (if 2 < colors.length then [(JVal.fin (3/10), colors.getD 2 "")] else []) ++
      (if 3 < colors.length then [(JVal.fin (5/10), colors.getD 3 "")] else []) ++
      (if 4 < colors.length then [(JVal.fin 1, colors.getD 4 "")]
       else [(JVal.fin 1, colors.getD (colors.length - 1) "")])
    | .darkToLight =>
      [(JVal.fin 0, colors.getD 0 "")] ++
      (if 1 < colors.length then [(JVal.fin (5/10), colors.getD 1 "")] else []) ++
      (if 2 < colors.length then [(JVal.fin (7/10), colors.getD 2 "")] else []) ++
      (if 3 < colors.length then [(JVal.fin (9/10), colors.getD 3 "")] else []) ++
      (if 4 < colors.length then [(JVal.fin 1, colors.getD 4 "")]
       else [(JVal.fin 1, colors.getD (colors.length - 1) "")])
  | .smooth =>
    let step := jdiv 1 ((colors.length : ℚ) - 1)
    (List.range colors.length).map
      (fun (i : ℕ) => (jmul (.fin (i : ℚ)) step, colors.getD i ""))

/-- `AlbumColorPaletteBackground.render` from
`src/src/core/background-modes.ts` (lines 244–294): empty palette falls back
to a solid black fill; otherwise a single full-area linear gradient fill
(there is no preliminary base fill in this version). -/
def albumPaletteRender (extractedColors : List String) (style : GradStyle)
    (direction : GradDirection) (width height : ℚ) : List DrawOp :=
  if extractedColors.length = 0 then
    [.fillRect (.color "#000000") 0 0 width height]
  else
    let colors :=
      if direction = .darkToLight then extractedColors.reverse else extractedColors
    [.fillRect (.linearGradient 0 0 0 height
        (albumPaletteStops colors style direction)) 0 0 width height]

/-- Value of a single hexadecimal digit character (0 for non-digits). -/
def hexDigitVal (c : Char) : ℕ :=
  if '0' ≤ c ∧ c ≤ '9' then c.toNat - '0'.toNat
  else if 'a' ≤ c ∧ c ≤ 'f' then c.toNat - 'a'.toNat + 10
  else if 'A' ≤ c ∧ c ≤ 'F' then c.toNat - 'A'.toNat + 10
  else 0

/-- Is `c` a hexadecimal digit (`[a-f\d]`, case-insensitive)? -/
def isHexDigitB (c : Char) : Bool :=
  ('0' ≤ c && c ≤ '9') || ('a' ≤ c && c ≤ 'f') || ('A' ≤ c && c ≤ 'F')

/-- `hexToRgb` (`src/test.ts` lines 1188–1195, also in the color utilities):
matches `/^#?([a-f\d]{2})([a-f\d]{2})([a-f\d]{2})$/i` and parses the three
channel pairs, returning `(0, 0, 0)` when the pattern does not match. -/
def hexToRgb (s : String) : ℕ × ℕ × ℕ :=
  let cs := s.data
  let cs := if cs.head? = some '#' then cs.tail else cs
  match cs with
  | [a, b, c, d, e, f] =>
    if (isHexDigitB a && isHexDigitB b && isHexDigitB c &&
        isHexDigitB d && isHexDigitB e && isHexDigitB f) then
      (16 * hexDigitVal a + hexDigitVal b,
       16 * hexDigitVal c + hexDigitVal d,
       16 * hexDigitVal e + hexDigitVal f)
    else (0, 0, 0)
  | _ => (0, 0, 0)

/-- Decimal digit characters of `n`, for `n ≤ 999` (the only values reaching
the `rgba(...)` template strings are color channels, which are ≤ 255). -/
def natChars (n : ℕ) : List Char :=
  if n < 10 then [Char.ofNat (48 + n)]
  else if n < 100 then [Char.ofNat (48 + n / 10), Char.ofNat (48 + n % 10)]
  else [Char.ofNat (48 + n / 100 % 10), Char.ofNat (48 + n / 10 % 10),
        Char.ofNat (48 + n % 10)]

/-- The template string `` `rgba(${r}, ${g}, ${b}, ${alpha})` ``. -/
def rgbaStr (r g b : ℕ) (alpha : String) : String :=
  "rgba(" ++ String.mk (natChars r) ++ ", " ++ String.mk (natChars g) ++ ", " ++
    String.mk (natChars b) ++ ", " ++ alpha ++ ")"

/-- `rgba` string for the parsed channels of a hex color, as built by the
`src/test.ts` render via `this.hexToRgb`. -/
def rgbaOfHex (hex : String) (alpha : String) : String :=
  let rgb := hexToRgb hex
  rgbaStr rgb.1 rgb.2.1 rgb.2.2 alpha

/-- The gradient stops built by the `AlbumColorPaletteBackground.render`
variant in `src/test.ts` (lines 1134–1182) for a nonempty palette. -/
def albumPaletteStopsTest (colors : List String) (style : GradStyle)
    (direction : GradDirection) : List (JVal × String) :=
  match style with
  | .emphasized =>
    match direction with
    | .lightToDark =>
      [(JVal.fin 0, colors.getD 0 "")] ++
      (if 1 < colors.length then [(JVal.fin (2/10), colors.getD 1 "")] else []) ++
      (if 2 < colors.length then [(JVal.fin (4/10), colors.getD 2 "")] else []) ++
      (if 3 < colors.length
       then [(JVal.fin (6/10), rgbaOfHex (colors.getD 3 "") "0.8")] else []) ++
      (if 4 < colors.length then
        [(JVal.fin (8/10), rgbaOfHex (colors.getD 4 "") "0.6"),
         (JVal.fin 1, rgbaOfHex (colors.getD 4 "") "0.5")]
       else
        [(JVal.fin (8/10), rgbaOfHex (colors.getD (colors.length - 1) "") "0.6"),
         (JVal.fin 1, rgbaOfHex (colors.getD (colors.length - 1) "") "0.5")])
    | .darkToLight =>
      [(JVal.fin 0, rgbaOfHex (colors.getD 0 "") "0.5"),
       (JVal.fin (2/10), rgbaOfHex (colors.getD 0 "") "0.6")] ++
      (if 1 < colors.length
       then [(JVal.fin (4/10), rgbaOfHex (colors.getD 1 "") "0.8")] else []) ++
      (if 2 < colors.length then [(JVal.fin (6/10), colors.getD 2 "")] else []) ++
      (if 3 < colors.length then [(JVal.fin (8/10), colors.getD 3 "")] else []) ++
      (if 4 < colors.length then [(JVal.fin 1, colors.getD 4 "")]
       else [(JVal.fin 1, colors.getD (colors.length - 1) "")])
  | .smooth =>
    let step := jdiv 1 ((colors.length : ℚ) - 1)
    (List.range colors.length).map
      (fun (i : ℕ) => (jmul (.fin (i : ℚ)) step, colors.getD i ""))

/-- The `AlbumColorPaletteBackground.render` variant in `src/test.ts`
(lines 1114–1186): empty palette falls back to black; otherwise it first
fills the whole area with the dark base color `#1e1e1e` and then overlays
the gradient. -/
def albumPaletteRenderTest (extractedColors : List String) (style : GradStyle)
    (direction : GradDirection) (width height : ℚ) : List DrawOp :=
  if extractedColors.length = 0 then
    [.fillRect (.color "#000000") 0 0 width height]
  else
    let colors :=
      if direction = .darkToLight then extractedColors.reverse else extractedColors
    [.fillRect (.color "#1e1e1e") 0 0 width height,
     .fillRect (.linearGradient 0 0 0 height
        (albumPaletteStopsTest colors style direction)) 0 0 width height]

/-! ### C7–C10: palette-gradient background behaviour -/

/-- **C8.** Rendering `AlbumColorPaletteBackground` with an empty extracted
palette fills the whole `width × height` area with solid `#000000` and draws
nothing else (no base fill, no gradient), for every size, style and
direction — in both the library version (`background-modes.ts`) and the
`src/test.ts` variant. -/
theorem albumPaletteRender_empty_black (width height : ℚ) (style : GradStyle)
    (direction : GradDirection) :
    albumPaletteRender [] style direction width height =
        [.fillRect (.color "#000000") 0 0 width height] ∧
      albumPaletteRenderTest [] style direction width height =
        [.fillRect (.color "#000000") 0 0 width height] :=
  ⟨rfl, rfl⟩

/-- **C7, counterexample.** On a concrete five-color palette, the
`background-modes.ts` render emits exactly one operation — the gradient fill
itself — and never the claimed `#1e1e1e` base fill; and the `src/test.ts`
variant (which does emit the base fill) uses stop positions
`0, 0.2, 0.4, 0.6, 0.8, 1`, not the claimed `0, 0.1, 0.3, 0.5, 1`. -/
theorem albumPaletteRender_no_base_fill_cx :
    (albumPaletteRender ["#aaaaaa", "#999999", "#888888", "#777777", "#666666"]
        .emphasized .lightToDark 100 100 =
      [.fillRect (.linearGradient 0 0 0 100
        [(JVal.fin 0, "#aaaaaa"), (JVal.fin (1/10), "#999999"),
         (JVal.fin (3/10), "#888888"), (JVal.fin (5/10), "#777777"),
         (JVal.fin 1, "#666666")]) 0 0 100 100]) ∧
    (∀ op ∈ albumPaletteRender ["#aaaaaa", "#999999", "#888888", "#777777", "#666666"]
        .emphasized .lightToDark 100 100,
       op ≠ .fillRect (.color "#1e1e1e") 0 0 100 100) ∧
    ((albumPaletteRenderTest ["#aaaaaa", "#999999", "#888888", "#777777", "#666666"]
        .emphasized .lightToDark 100 100).map (fun op => (stopsOf op).map Prod.fst) =
      [[], [JVal.fin 0, JVal.fin (2/10), JVal.fin (4/10), JVal.fin (6/10),
            JVal.fin (8/10), JVal.fin 1]]) ∧
    [JVal.fin 0, JVal.fin (2/10), JVal.fin (4/10), JVal.fin (6/10),
        JVal.fin (8/10), JVal.fin 1] ≠
      [JVal.fin 0, JVal.fin (1/10), JVal.fin (3/10), JVal.fin (5/10), JVal.fin 1] := by
  have hd : (GradDirection.lightToDark = GradDirection.darkToLight) = False := by
    simp
  refine ⟨?_, ?_, ?_, ?_⟩
  · norm_num [albumPaletteRender, albumPaletteStops, hd]
  · intro op hop
    norm_num [albumPaletteRender, albumPaletteStops, hd] at hop
    subst hop
    simp
  · norm_num [albumPaletteRenderTest, albumPaletteStopsTest, stopsOf, hd]
  · simp

/-- Every color stop built by `albumPaletteStops` carries a palette entry
verbatim: the code only ever reads `colors[i]` at an in-range index and never
rewrites the string (no `rgba(...)` alpha wrapping in this version). -/
theorem albumPaletteStops_color_mem (cs : List String) (style : GradStyle)
    (dir : GradDirection) (hne : cs ≠ []) :
    ∀ p ∈ albumPaletteStops cs style dir, p.2 ∈ cs := by
  have hlen : 0 < cs.length := List.length_pos.mpr hne
  have hget : ∀ i, i < cs.length → cs.getD i "" ∈ cs := by
    intro i hi
    rw [List.getD_eq_getElem?_getD, List.getElem?_eq_getElem hi]
    exact List.getElem_mem hi
  have hif : ∀ (p : JVal × String) (n : ℕ) (q : ℚ),
      p ∈ (if n < cs.length then [(JVal.fin q, cs.getD n "")]
        else ([] : List (JVal × String))) → p.2 ∈ cs := by
    intro p n q hmem
    by_cases hn : n < cs.length
    · rw [if_pos hn, List.mem_singleton] at hmem
      subst hmem
      exact hget n hn
    · rw [if_neg hn] at hmem
      simp at hmem
  have hlast : ∀ p : JVal × String,
      p ∈ (if 4 < cs.length then [(JVal.fin 1, cs.getD 4 "")]
        else [(JVal.fin 1, cs.getD (cs.length - 1) "")]) → p.2 ∈ cs := by
    intro p hmem
    by_cases hn : 4 < cs.length
    · rw [if_pos hn, List.mem_singleton] at hmem
      subst hmem
      exact hget 4 hn
    · rw [if_neg hn, List.mem_singleton] at hmem
      subst hmem
      exact hget (cs.length - 1) (by omega)
  intro p hp
  cases style with
  | smooth =>
    simp only [albumPaletteStops, List.mem_map] at hp
    obtain ⟨i, hi, rfl⟩ := hp
    exact hget i (List.mem_range.mp hi)
  | emphasized =>
    cases dir with
    | lightToDark =>
      simp only [albumPaletteStops] at hp
      rcases List.mem_append.mp hp with hp1 | h5
      · rcases List.mem_append.mp hp1 with hp2 | h4
        · rcases List.mem_append.mp hp2 with hp3 | h3
          · rcases List.mem_append.mp hp3 with h1 | h2
            · rw [List.mem_singleton] at h1
              subst h1
              exact hget 0 hlen
            · exact hif p 1 (1 / 10) h2
          · exact hif p 2 (3 / 10) h3
        · exact hif p 3 (5 / 10) h4
      · exact hlast p h5
    | darkToLight =>
      simp only [albumPaletteStops] at hp
      rcases List.mem_append.mp hp with hp1 | h5
      · rcases List.mem_append.mp hp1 with hp2 | h4
        · rcases List.mem_append.mp hp2 with hp3 | h3
          · rcases List.mem_append.mp hp3 with h1 | h2
            · rw [List.mem_singleton] at h1
              subst h1
              exact hget 0 hlen
            · exact hif p 1 (5 / 10) h2
          · exact hif p 2 (7 / 10) h3
        · exact hif p 3 (9 / 10) h4
      · exact hlast p h5

/-- **C7, amended.**  For every nonempty palette, style and direction, the
`background-modes.ts` `AlbumColorPaletteBackground.render` attempts exactly
one drawing operation — a full-area top-to-bottom linear-gradient fill — and
never a plain-color fill (in particular no `#1e1e1e` base fill); every stop
color is a palette entry verbatim, with no alpha reduction.  In the
`emphasized` style with at least five colors the hard-coded stops are
`0, 0.1, 0.3, 0.5, 1` for `lightToDark` and `0, 0.5, 0.7, 0.9, 1` for
`darkToLight` (on the reversed palette), and colors beyond the fifth are
ignored.  The attempted operation need not complete: for a one-color
`smooth` palette the single computed stop position is `NaN`
(`0 * Infinity`), which `addColorStop` rejects, so that gradient fill fails
at render time. -/
theorem albumPaletteRender_single_gradient_op (colors : List String)
    (style : GradStyle) (dir : GradDirection) (w h : ℚ) (hne : colors ≠ []) :
    (albumPaletteRender colors style dir w h =
      [.fillRect (.linearGradient 0 0 0 h
        (albumPaletteStops
          (if dir = GradDirection.darkToLight then colors.reverse else colors)
          style dir)) 0 0 w h]) ∧
    (∀ op ∈ albumPaletteRender colors style dir w h,
      ∀ (c : String) (x0 y0 w0 h0 : ℚ),
        op ≠ DrawOp.fillRect (.color c) x0 y0 w0 h0) ∧
    (∀ p ∈ albumPaletteStops
        (if dir = GradDirection.darkToLight then colors.reverse else colors)
        style dir, p.2 ∈ colors) ∧
    (style = GradStyle.emphasized → 5 ≤ colors.length →
      (dir = GradDirection.lightToDark →
        albumPaletteRender colors style dir w h =
          [.fillRect (.linearGradient 0 0 0 h
            [(JVal.fin 0, colors.getD 0 ""), (JVal.fin (1/10), colors.getD 1 ""),
             (JVal.fin (3/10), colors.getD 2 ""),
             (JVal.fin (5/10), colors.getD 3 ""),
             (JVal.fin 1, colors.getD 4 "")]) 0 0 w h]) ∧
      (dir = GradDirection.darkToLight →
        albumPaletteRender colors style dir w h =
          [.fillRect (.linearGradient 0 0 0 h
            [(JVal.fin 0, colors.reverse.getD 0 ""),
             (JVal.fin (5/10), colors.reverse.getD 1 ""),
             (JVal.fin (7/10), colors.reverse.getD 2 ""),
             (JVal.fin (9/10), colors.reverse.getD 3 ""),
             (JVal.fin 1, colors.reverse.getD 4 "")]) 0 0 w h])) ∧
    (style = GradStyle.smooth → ∀ c : String, colors = [c] →
      albumPaletteStops
        (if dir = GradDirection.darkToLight then colors.reverse else colors)
        GradStyle.smooth dir = [(JVal.nan, c)] ∧
      validStopB JVal.nan = false) := by
  have hl0 : ¬ colors.length = 0 := by simpa using hne
  have hd : (GradDirection.lightToDark = GradDirection.darkToLight) = False := by
    simp
  have ha : albumPaletteRender colors style dir w h =
      [.fillRect (.linearGradient 0 0 0 h
        (albumPaletteStops
          (if dir = GradDirection.darkToLight then colors.reverse else colors)
          style dir)) 0 0 w h] := by
    simp [albumPaletteRender, hl0]
  refine ⟨ha, ?_, ?_, ?_, ?_⟩
  · intro op hop
    rw [ha, List.mem_singleton] at hop
    subst hop
    intro c x0 y0 w0 h0
    simp
  · intro p hp
    have hcs : (if dir = GradDirection.darkToLight then colors.reverse
        else colors) ≠ [] := by
      cases dir <;> simp [hne]
    have hmem := albumPaletteStops_color_mem _ style dir hcs p hp
    cases dir with
    | lightToDark => simpa using hmem
    | darkToLight => exact List.mem_reverse.mp (by simpa using hmem)
  · intro hs h5
    subst hs
    have h1 : 1 < colors.length := by omega
    have h2 : 2 < colors.length := by omega
    have h3 : 3 < colors.length := by omega
    have h4 : 4 < colors.length := by omega
    have h1r : 1 < colors.reverse.length := by simpa using h1
    have h2r : 2 < colors.reverse.length := by simpa using h2
    have h3r : 3 < colors.reverse.length := by simpa using h3
    have h4r : 4 < colors.reverse.length := by simpa using h4
    constructor
    · intro hdir
      subst hdir
      simp [albumPaletteRender, albumPaletteStops, hl0, h1, h2, h3, h4, hd]
    · intro hdir
      subst hdir
      simp [albumPaletteRender, albumPaletteStops, hl0, h1, h2, h3, h4,
        h1r, h2r, h3r, h4r]
  · intro hs c hc
    subst hs
    subst hc
    refine ⟨?_, rfl⟩
    cases dir <;>
      norm_num [albumPaletteStops, jdiv, jmul,
        show List.range 1 = [0] from rfl]

/-- Witness for the amended C7 theorem at a concrete two-color palette:
the render issues the single gradient fill. -/
theorem albumPaletteRender_single_gradient_op_witness :
    (["#aaaaaa", "#999999"] : List String) ≠ [] ∧
    albumPaletteRender ["#aaaaaa", "#999999"] .emphasized .lightToDark 10 20 =
      [.fillRect (.linearGradient 0 0 0 20
        (albumPaletteStops
          (if GradDirection.lightToDark = GradDirection.darkToLight then
            (["#aaaaaa", "#999999"] : List String).reverse
           else ["#aaaaaa", "#999999"])
          .emphasized .lightToDark)) 0 0 10 20] :=
  ⟨List.cons_ne_nil _ _,
    (albumPaletteRender_single_gradient_op ["#aaaaaa", "#999999"] .emphasized
      .lightToDark 10 20 (List.cons_ne_nil _ _)).1⟩

/-- **C9, counterexample.** Constructing `AlbumColorPaletteBackground` with a
single extracted color does not raise: its constructor performs no length
validation, so the claim fails for this palette-derived gradient variant. -/
theorem albumPaletteCtor_one_color_ok_cx :
    (albumPaletteCtor ["#ffffff"] .emphasized .lightToDark).isOk = true := rfl

/-- **C9, amended.** The four explicit gradient variants (top, bottom, custom
stops, radial) raise a construction error on a single color/stop and succeed
on two; the palette-derived `AlbumColorPaletteBackground`, by contrast,
accepts any palette (including a single color) without a construction-time
error. -/
theorem gradient_ctor_two_color_guard (c1 c2 : String) (s1 s2 : ℚ × String)
    (cs : List String) (style : GradStyle) (dir : GradDirection) :
    (gradientTopCtor [c1]).isOk = false ∧ (gradientTopCtor [c1, c2]).isOk = true ∧
    (gradientBottomCtor [c1]).isOk = false ∧ (gradientBottomCtor [c1, c2]).isOk = true ∧
    (customGradientCtor [s1]).isOk = false ∧ (customGradientCtor [s1, s2]).isOk = true ∧
    (radialGradientCtor [c1]).isOk = false ∧ (radialGradientCtor [c1, c2]).isOk = true ∧
    (albumPaletteCtor cs style dir).isOk = true :=
  ⟨rfl, rfl, rfl, rfl, rfl, rfl, rfl, rfl, rfl⟩

/-- **C10.** `AlbumColorPaletteBackground` accepts a one-color palette at
construction (no length validation); its `smooth` render computes the stop
spacing as `1 / (colors.length - 1)` with no guard, so for a singleton
palette the divisor is zero (`1 / 0 = Infinity` and `0 * Infinity = NaN` in
JavaScript): the single computed stop position is `NaN`, which is not a valid
fraction in `[0, 1]`, and the failure therefore surfaces at render time, not
at construction. -/
theorem albumPalette_singleton_defers_failure (c : String) (style : GradStyle)
    (dir : GradDirection) (w h : ℚ) :
    (albumPaletteCtor [c] style dir).isOk = true ∧
    albumPaletteRender [c] .smooth dir w h =
      [.fillRect (.linearGradient 0 0 0 h [(JVal.nan, c)]) 0 0 w h] ∧
    validStopB JVal.nan = false := by
  refine ⟨rfl, ?_, rfl⟩
  cases dir <;>
    norm_num [albumPaletteRender, albumPaletteStops, jdiv, jmul,
      show List.range 1 = [0] from rfl]

/-! ## Text truncation (`truncateText`, canvas utilities in
`src/unnamed/part_002` lines 339–352)

Text is modelled as `List Char`; the context's `measureText` is an arbitrary
measurement function into ℚ. -/

/-- The three-dot ellipsis suffix `'...'`. -/
def dots : List Char := ['.', '.', '.']

/-- The `while` loop of `truncateText`: repeatedly drop the last character
while `truncated + '...'` measures over `maxWidth` and the string is
nonempty.  `slice(0, -1)` is `List.dropLast`; the loop runs at most
`text.length` times, which `truncateText` supplies as structural fuel. -/
def truncGo (measure : List Char → ℚ) (maxWidth : ℚ) :
    ℕ → List Char → List Char
  | 0, t => t
  | fuel + 1, t =>
    if maxWidth < measure (t ++ dots) ∧ t ≠ [] then
      truncGo measure maxWidth fuel t.dropLast
    else t

/-- `truncateText` from the canvas utilities: return the text unchanged when
it fits, otherwise trim characters from the end until `truncated + '...'`
fits (or the string is exhausted) and append `'...'`. -/
def truncateText (measure : List Char → ℚ) (text : List Char)
    (maxWidth : ℚ) : List Char :=
  if measure text ≤ maxWidth then text
  else truncGo measure maxWidth text.length text ++ dots

theorem truncGo_spec (measure : List Char → ℚ) (maxWidth : ℚ) :
    ∀ (fuel : ℕ) (t : List Char), t.length ≤ fuel →
      (∃ k ≤ t.length,
        truncGo measure maxWidth fuel t = t.take k ∧
        measure (t.take k ++ dots) ≤ maxWidth ∧
        (∀ j ≤ t.length, measure (t.take j ++ dots) ≤ maxWidth → j ≤ k)) ∨
      ((∀ j ≤ t.length, maxWidth < measure (t.take j ++ dots)) ∧
        truncGo measure maxWidth fuel t = []) := by
  intro fuel
  induction fuel with
  | zero =>
    intro t ht
    have ht0 : t = [] := List.length_eq_zero.mp (Nat.le_zero.mp ht)
    subst ht0
    by_cases hP : maxWidth < measure ([] ++ dots)
    · right
      refine ⟨?_, rfl⟩
      intro j hj
      have hj0 : j = 0 := by simpa using hj
      subst hj0
      simpa using hP
    · left
      refine ⟨0, le_refl _, rfl, by simpa using not_lt.mp hP, ?_⟩
      intro j hj _
      omega
  | succ fuel ih =>
    intro t ht
    rw [truncGo]
    by_cases hcond : maxWidth < measure (t ++ dots) ∧ t ≠ []
    · rw [if_pos hcond]
      have htne : t ≠ [] := hcond.2
      have hlen : 0 < t.length := List.length_pos.mpr htne
      have hlen' : t.dropLast.length = t.length - 1 := List.length_dropLast t
      have hfuel : t.dropLast.length ≤ fuel := by omega
      have htake : ∀ j, j ≤ t.length - 1 → t.dropLast.take j = t.take j := by
        intro j hj
        rw [List.dropLast_eq_take, List.take_take]
        congr 1
        omega
      rcases ih t.dropLast hfuel with ⟨k, hk, heq, hfit, hmax⟩ | ⟨hall, heq⟩
      · left
        rw [hlen'] at hk
        refine ⟨k, by omega, ?_, ?_, ?_⟩
        · rw [heq, htake k hk]
        · rw [htake k hk] at hfit
          exact hfit
        · intro j hj hfitj
          rcases Nat.lt_or_ge j t.length with hjlt | hjge
          · refine hmax j ?_ ?_
            · omega
            · rw [htake j (by omega)]
              exact hfitj
          · exfalso
            have hjeq : j = t.length := by omega
            rw [hjeq, List.take_length] at hfitj
            exact absurd hfitj (not_le.mpr hcond.1)
      · right
        refine ⟨?_, heq⟩
        intro j hj
        rcases Nat.lt_or_ge j t.length with hjlt | hjge
        · have := hall j (by omega)
          rw [htake j (by omega)] at this
          exact this
        · have hjeq : j = t.length := by omega
          rw [hjeq, List.take_length]
          exact hcond.1
    · rw [if_neg hcond]
      push_neg at hcond
      by_cases hP : maxWidth < measure (t ++ dots)
      · have ht0 : t = [] := hcond hP
        subst ht0
        right
        refine ⟨?_, rfl⟩
        intro j hj
        have hj0 : j = 0 := by simpa using hj
        subst hj0
        simpa using hP
      · left
        refine ⟨t.length, le_refl _, (List.take_length t).symm, ?_, ?_⟩
        · rw [List.take_length]
          exact not_lt.mp hP
        · intro j hj _
          exact hj

/-- **C3.** For every measurement function, text and `maxWidth`: if the full
text measures within `maxWidth`, `truncateText` returns it unchanged;
otherwise it returns `p ++ "..."` where `p` is the longest prefix whose
measured width together with the `"..."` suffix is at most `maxWidth` (so in
that case the returned string's measured width never exceeds `maxWidth`),
except that when no prefix at all fits, `"..."` alone is returned. -/
theorem truncateText_spec (measure : List Char → ℚ) (text : List Char)
    (maxWidth : ℚ) :
    (measure text ≤ maxWidth → truncateText measure text maxWidth = text) ∧
    (maxWidth < measure text →
      (∃ k ≤ text.length,
        truncateText measure text maxWidth = text.take k ++ dots ∧
        measure (text.take k ++ dots) ≤ maxWidth ∧
        (∀ j ≤ text.length, measure (text.take j ++ dots) ≤ maxWidth → j ≤ k)) ∨
      ((∀ j ≤ text.length, maxWidth < measure (text.take j ++ dots)) ∧
        truncateText measure text maxWidth = dots)) := by
  constructor
  · intro hfit
    rw [truncateText, if_pos hfit]
  · intro hover
    rw [truncateText, if_neg (not_le.mpr hover)]
    rcases truncGo_spec measure maxWidth text.length text (le_refl _) with
      ⟨k, hk, heq, hfit, hmax⟩ | ⟨hall, heq⟩
    · left
      exact ⟨k, hk, by rw [heq], hfit, hmax⟩
    · right
      exact ⟨hall, by rw [heq]; rfl⟩

/-! ## Two-column track listing
(`Album1Design.drawTrackListing`, `src/src/designs/album-1.ts` lines 234–275) -/

/-- The template string `` `${i + 1}. ${tracks[i]}` ``. -/
def trackLabel (i : ℕ) (title : List Char) : List Char :=
  natChars (i + 1) ++ ('.' :: ' ' :: title)

/-- `drawTrackListing`: the list of `(text, x, y)` triples passed to
`ctx.fillText`.  The first loop runs for `i < 10 && i < tracks.length`
(i.e. `i < min 10 tracks.length`), the second for `10 ≤ i < 20` and
`i < tracks.length`; each accumulates draws in order (`foldl` mirrors the
sequential `fillText` calls). -/
def drawTrackListing (measure : List Char → ℚ) (tracks : List (List Char))
    (startX startY sectionWidth lineHeight : ℚ) : List (List Char × ℚ × ℚ) :=
  let maxColumnWidth : ℚ := (sectionWidth - 50) / 2
  let firstColWidth : ℚ := (List.range (min 10 tracks.length)).foldl
    (fun acc i =>
      max acc (measure (truncateText measure (trackLabel i (tracks.getD i []))
        maxColumnWidth))) 0
  let secondColumnX : ℚ := startX + min firstColWidth maxColumnWidth + 50
  ((List.range (min 10 tracks.length)).foldl
    (fun ops i =>
      ops ++ [(truncateText measure (trackLabel i (tracks.getD i [])) maxColumnWidth,
        startX, startY + (i : ℚ) * lineHeight)]) []) ++
  ((List.range' 10 (min 20 tracks.length - 10)).foldl
    (fun ops i =>
      ops ++ [(truncateText measure (trackLabel i (tracks.getD i [])) maxColumnWidth,
        secondColumnX, startY + ((i : ℚ) - 10) * lineHeight)]) [])

theorem foldl_append_eq_map {α β : Type} (f : α → β) :
    ∀ (l : List α) (acc : List β),
      List.foldl (fun ops i => ops ++ [f i]) acc l = acc ++ l.map f := by
  intro l
  induction l with
  | nil => intro acc; simp
  | cons x xs ih =>
    intro acc
    simp [List.foldl_cons, ih]

theorem foldl_max_spec :
    ∀ (l : List ℚ) (a : ℚ),
      (List.foldl max a l = a ∨ List.foldl max a l ∈ l) ∧
      a ≤ List.foldl max a l ∧ (∀ x ∈ l, x ≤ List.foldl max a l) := by
  intro l
  induction l with
  | nil => intro a; simp
  | cons x xs ih =>
    intro a
    obtain ⟨hmem, hge, hub⟩ := ih (max a x)
    refine ⟨?_, ?_, ?_⟩
    · rcases hmem with h | h
      · rcases max_choice a x with hc | hc
        · left; rw [List.foldl_cons, h, hc]
        · right; rw [List.foldl_cons, h, hc]; exact List.mem_cons_self _ _
      · right; exact List.mem_cons_of_mem _ h
    · exact le_trans (le_max_left a x) hge
    · intro z hz
      rcases List.mem_cons.mp hz with hz | hz
      · subst hz; exact le_trans (le_max_right a z) hge
      · exact hub z hz

/-- **C4.** `drawTrackListing` draws exactly the (truncated, numbered) titles
at indices `0 … min 20 tracks.length − 1` and no others: title `i < 10` at
`(startX, startY + i·lineHeight)`; title `10 ≤ i < 20` at
`(startX + min firstColumnWidth ((sectionWidth − 50)/2) + 50,
startY + (i − 10)·lineHeight)` where `firstColumnWidth` is the maximum
measured width of the truncated first-column entries (an upper bound of all
of them, attained when any tracks exist); titles at index 20 and beyond are
silently omitted, so with 25 titles exactly 20 draws happen. -/
theorem drawTrackListing_spec (measure : List Char → ℚ)
    (tracks : List (List Char)) (startX startY sectionWidth lineHeight : ℚ)
    (hm : ∀ s, 0 ≤ measure s) :
    ∃ fcw : ℚ,
      (∀ i < min 10 tracks.length,
        measure (truncateText measure (trackLabel i (tracks.getD i []))
          ((sectionWidth - 50) / 2)) ≤ fcw) ∧
      (tracks ≠ [] → ∃ i < min 10 tracks.length,
        fcw = measure (truncateText measure (trackLabel i (tracks.getD i []))
          ((sectionWidth - 50) / 2))) ∧
      drawTrackListing measure tracks startX startY sectionWidth lineHeight =
        (List.range (min 10 tracks.length)).map
          (fun i => (truncateText measure (trackLabel i (tracks.getD i []))
              ((sectionWidth - 50) / 2),
            startX, startY + (i : ℚ) * lineHeight)) ++
        (List.range' 10 (min 20 tracks.length - 10)).map
          (fun i => (truncateText measure (trackLabel i (tracks.getD i []))
              ((sectionWidth - 50) / 2),
            startX + min fcw ((sectionWidth - 50) / 2) + 50,
            startY + ((i : ℚ) - 10) * lineHeight)) ∧
      (drawTrackListing measure tracks startX startY sectionWidth lineHeight).length =
        min 20 tracks.length := by
  set mcw : ℚ := (sectionWidth - 50) / 2 with hmcw
  set tr : ℕ → List Char :=
    fun i => truncateText measure (trackLabel i (tracks.getD i [])) mcw with htr
  set fcw : ℚ :=
    (List.range (min 10 tracks.length)).foldl
      (fun acc i => max acc (measure (tr i))) 0 with hfcw
  obtain ⟨hmem, hge0, hub⟩ :=
    foldl_max_spec (((List.range (min 10 tracks.length)).map
      (fun i => measure (tr i)))) 0
  have hfold : fcw = List.foldl max 0
      ((List.range (min 10 tracks.length)).map (fun i => measure (tr i))) := by
    rw [hfcw, List.foldl_map]
  refine ⟨fcw, ?_, ?_, ?_, ?_⟩
  · intro i hi
    refine le_of_eq_of_le rfl ?_
    rw [hfold]
    exact hub _ (List.mem_map_of_mem _ (List.mem_range.mpr hi))
  · intro hne
    have hpos : 0 < min 10 tracks.length := by
      have : 0 < tracks.length := List.length_pos.mpr hne
      omega
    rcases hmem with h0 | hm'
    · refine ⟨0, hpos, ?_⟩
      show fcw = measure (tr 0)
      have h00 : measure (tr 0) ≤ fcw := by
        rw [hfold]
        exact hub _ (List.mem_map_of_mem _ (List.mem_range.mpr hpos))
      have hnn := hm (tr 0)
      have hfe : fcw = 0 := by rw [hfold, h0]
      rw [hfe] at h00 ⊢
      linarith
    · obtain ⟨i, hi, hei⟩ := List.mem_map.mp hm'
      refine ⟨i, List.mem_range.mp hi, ?_⟩
      show fcw = measure (tr i)
      rw [hfold]
      exact hei.symm
  · rw [drawTrackListing]
    rw [foldl_append_eq_map, foldl_append_eq_map]
    simp only [List.nil_append]
  · rw [drawTrackListing]
    rw [foldl_append_eq_map, foldl_append_eq_map]
    simp only [List.nil_append, List.length_append, List.length_map,
      List.length_range, List.length_range']
    omega

/-- Witness for C4: 25 track titles with a (nonnegative) character-count
measure produce exactly 20 draws. -/
theorem drawTrackListing_spec_witness :
    (∀ s : List Char, 0 ≤ ((s.length : ℚ))) ∧
      ∃ fcw : ℚ,
        (∀ i < min 10 (List.replicate 25 ['x']).length,
          ((truncateText (fun s => (s.length : ℚ))
            (trackLabel i ((List.replicate 25 ['x']).getD i []))
            ((500 - 50) / 2)).length : ℚ) ≤ fcw) ∧
        ((List.replicate 25 ['x']) ≠ [] → ∃ i < min 10 (List.replicate 25 ['x']).length,
          fcw = ((truncateText (fun s => (s.length : ℚ))
            (trackLabel i ((List.replicate 25 ['x']).getD i []))
            ((500 - 50) / 2)).length : ℚ)) ∧
        drawTrackListing (fun s => (s.length : ℚ)) (List.replicate 25 ['x'])
            10 20 500 60 =
          (List.range (min 10 (List.replicate 25 ['x']).length)).map
            (fun i => (truncateText (fun s => (s.length : ℚ))
                (trackLabel i ((List.replicate 25 ['x']).getD i []))
                ((500 - 50) / 2),
              10, 20 + (i : ℚ) * 60)) ++
          (List.range' 10 (min 20 (List.replicate 25 ['x']).length - 10)).map
            (fun i => (truncateText (fun s => (s.length : ℚ))
                (trackLabel i ((List.replicate 25 ['x']).getD i []))
                ((500 - 50) / 2),
              10 + min fcw ((500 - 50) / 2) + 50,
              20 + ((i : ℚ) - 10) * 60)) ∧
        (drawTrackListing (fun s => (s.length : ℚ)) (List.replicate 25 ['x'])
            10 20 500 60).length = min 20 (List.replicate 25 ['x']).length :=
  ⟨fun s => by positivity,
    drawTrackListing_spec (fun s => (s.length : ℚ)) (List.replicate 25 ['x'])
      10 20 500 60 (fun s => by positivity)⟩

/-! ## Color extraction (`extractColorPalette`, `src/unnamed/part_002`
(color utilities) lines 403–490)

The image is modelled as its decoded pixel list (RGBA byte quadruples, in
row-major order), i.e. the content of `getImageData`.  The code stores each
candidate's `lightness = (r + g + b) / 3` and only ever compares lightness
values (sort comparators and the `> 20` diversity threshold), so the
embedding carries the exact integer `r + g + b` and compares it against
thresholds scaled by 3 (`> 60`), which is equivalent and keeps the whole
pipeline kernel-computable; the claim-level `specLightness` below divides by
3 as the spec states. -/

/-- One RGBA pixel. -/
abbrev Pixel := ℕ × ℕ × ℕ × ℕ

/-- A quantized RGB triple (the parsed form of the `"r,g,b"` map key). -/
abbrev RgbKey := ℕ × ℕ × ℕ

/-- Every 10th pixel of the image (the `i += 40` byte stride). -/
def sampledPixels (pixels : List Pixel) : List Pixel :=
  (pixels.enum.filter (fun p => p.1 % 10 = 0)).map Prod.snd

/-- The skip test: transparent (`a < 128`), near-black (all channels `< 20`)
or near-white (all channels `> 235`) samples are discarded. -/
def keepPixel (p : Pixel) : Bool :=
  !(p.2.2.2 < 128 || (p.1 < 20 && p.2.1 < 20 && p.2.2.1 < 20) ||
    (235 < p.1 && 235 < p.2.1 && 235 < p.2.2.1))

/-- `Math.round(v / 32) * 32` on a byte value (round half up). -/
def quantize (v : ℕ) : ℕ := ((v + 16) / 32) * 32

/-- Increment `key`'s tally in an insertion-ordered association list
(JavaScript `Map` iteration order is insertion order). -/
def upsert (counts : List (RgbKey × ℕ)) (key : RgbKey) : List (RgbKey × ℕ) :=
  match counts with
  | [] => [(key, 1)]
  | (k, c) :: rest =>
    if k = key then (k, c + 1) :: rest else (k, c) :: upsert rest key

/-- The `colorCounts` map: quantized-color tallies of the kept samples, in
first-seen order. -/
def colorCounts (pixels : List Pixel) : List (RgbKey × ℕ) :=
  (sampledPixels pixels).foldl
    (fun counts p =>
      if keepPixel p then
        upsert counts (quantize p.1, quantize p.2.1, quantize p.2.2.1)
      else counts) []

/-- Stable insertion of `x` before the first element `y` with `lt x y`
(ties keep original order, as ECMAScript `Array.prototype.sort` is stable). -/
def insertBy {α : Type} (lt : α → α → Bool) (x : α) : List α → List α
  | [] => [x]
  | y :: ys => if lt x y then x :: y :: ys else y :: insertBy lt x ys

/-- Stable sort: elements inserted left to right. -/
def sortBy {α : Type} (lt : α → α → Bool) (l : List α) : List α :=
  l.foldl (fun acc x => insertBy lt x acc) []

/-- Candidate colors: tallies sorted by count descending (stable), the top
`numColors * 3` kept, paired with `3 × lightness = r + g + b`. -/
def paletteCandidates (pixels : List Pixel) (numColors : ℕ) :
    List (RgbKey × ℕ) :=
  (((sortBy (fun x y => decide (y.2 < x.2)) (colorCounts pixels)).take
      (numColors * 3)).map Prod.fst).map
    (fun c => (c, c.1 + c.2.1 + c.2.2))

/-- The diversity-filter loop: greedily accept a candidate when its lightness
differs from every accepted one by more than 20 (`> 60` on the ×3 scale);
the first acceptance `continue`s past the break test, every later iteration
breaks once `numColors` are accepted. -/
def diverseLoop (numColors : ℕ) :
    List (RgbKey × ℕ) → List (RgbKey × ℕ) → List (RgbKey × ℕ)
  | [], acc => acc
  | c :: rest, acc =>
    if acc.length = 0 then diverseLoop numColors rest (acc ++ [c])
    else
      let acc' :=
        if acc.all (fun e => 60 < ((e.2 : ℤ) - c.2).natAbs) then acc ++ [c]
        else acc
      if numColors ≤ acc'.length then acc' else diverseLoop numColors rest acc'

/-- The backfill loop: append candidates not already present (compared by
RGB) until `numColors` is reached. -/
def fillLoop (numColors : ℕ) :
    List (RgbKey × ℕ) → List (RgbKey × ℕ) → List (RgbKey × ℕ)
  | [], acc => acc
  | c :: rest, acc =>
    if acc.any (fun dc => dc.1 = c.1) then fillLoop numColors rest acc
    else
      let acc' := acc ++ [c]
      if numColors ≤ acc'.length then acc' else fillLoop numColors rest acc'

/-- The selected colors before the final sort. -/
def diverseColors (pixels : List Pixel) (numColors : ℕ) : List (RgbKey × ℕ) :=
  let cands := paletteCandidates pixels numColors
  let d := diverseLoop numColors cands []
  if d.length < numColors then fillLoop numColors cands d else d

/-- Lowercase hexadecimal digit character. -/
def hexDigitChar (n : ℕ) : Char :=
  if n < 10 then Char.ofNat (48 + n) else Char.ofNat (87 + n)

/-- `Math.min(255, Math.max(0, v)).toString(16).padStart(2, '0')`. -/
def toHexByte (v : ℕ) : List Char :=
  let c := min 255 v
  [hexDigitChar (c / 16), hexDigitChar (c % 16)]

/-- The final `#rrggbb` string of a quantized color. -/
def toHexColor (c : RgbKey) : String :=
  String.mk ('#' :: (toHexByte c.1 ++ toHexByte c.2.1 ++ toHexByte c.2.2))

/-- `extractColorPalette`: the pure pipeline from decoded pixels to the hex
palette (sampling, filtering, quantized tallying, count sort, diversity
selection, backfill, lightness sort, hex formatting). -/
def extractColorPalette (pixels : List Pixel) (numColors : ℕ) : List String :=
  (sortBy (fun x y => decide (y.2 < x.2)) (diverseColors pixels numColors)).map
    (fun c => toHexColor c.1)

/-- The lightness of a returned `#rrggbb` hex color as the claim defines it:
the mean of its red, green and blue components. -/
def specLightness (s : String) : ℚ :=
  let cs := s.data.drop 1
  ((16 * hexDigitVal (cs.getD 0 '0') + hexDigitVal (cs.getD 1 '0') +
    (16 * hexDigitVal (cs.getD 2 '0') + hexDigitVal (cs.getD 3 '0')) +
    (16 * hexDigitVal (cs.getD 4 '0') + hexDigitVal (cs.getD 5 '0')) : ℕ) : ℚ) / 3

/-- **C2, counterexample.** An 11×1 image whose sampled pixels are
`(250, 40, 0, 255)` and `(96, 96, 96, 255)`: the first quantizes to
`(256, 32, 0)` (internal lightness 96, same as `(96, 96, 96)`), the tie keeps
it first through both stable sorts, but hex conversion clamps 256 to 255, so
the returned palette `["#ff2000", "#606060"]` has the lightness of position 0
strictly below the lightness of position 1, violating the claimed
non-increasing order. -/
theorem extractColorPalette_strict_order_cx :
    extractColorPalette
        ((250, 40, 0, 255) ::
          (List.replicate 9 ((0, 0, 0, 255) : Pixel) ++ [(96, 96, 96, 255)])) 5 =
      ["#ff2000", "#606060"] ∧
    specLightness "#ff2000" < specLightness "#606060" := by
  constructor
  · rfl
  · show ((287 : ℕ) : ℚ) / 3 < ((288 : ℕ) : ℚ) / 3
    norm_num

/-! ### Sortedness and provenance lemmas for the palette pipeline -/

theorem insertBy_chain (key : RgbKey × ℕ → ℕ) (x : RgbKey × ℕ) :
    ∀ l : List (RgbKey × ℕ),
      List.Chain' (fun a b => key b ≤ key a) l →
      List.Chain' (fun a b => key b ≤ key a)
        (insertBy (fun a b => decide (key b < key a)) x l) := by
  intro l
  induction l with
  | nil => intro _; simp [insertBy]
  | cons y ys ih =>
    intro hl
    rw [insertBy]
    by_cases hlt : key y < key x
    · rw [if_pos (by simpa using hlt)]
      exact List.chain'_cons'.mpr ⟨fun z hz => by
          simp at hz
          subst hz
          exact le_of_lt hlt,
        hl⟩
    · rw [if_neg (by simpa using hlt)]
      obtain ⟨hhead, hys⟩ := List.chain'_cons'.mp hl
      refine List.chain'_cons'.mpr ⟨?_, ih hys⟩
      intro z hz
      cases ys with
      | nil =>
        simp [insertBy] at hz
        subst hz
        omega
      | cons w ws =>
        rw [insertBy] at hz
        by_cases hlt2 : key w < key x
        · rw [if_pos (by simpa using hlt2)] at hz
          simp at hz
          subst hz
          omega
        · rw [if_neg (by simpa using hlt2)] at hz
          simp at hz
          subst hz
          exact hhead w (by simp)

theorem sortBy_chain (key : RgbKey × ℕ → ℕ) (l : List (RgbKey × ℕ)) :
    List.Chain' (fun a b => key b ≤ key a)
      (sortBy (fun a b => decide (key b < key a)) l) := by
  suffices h : ∀ acc, List.Chain' (fun a b => key b ≤ key a) acc →
      List.Chain' (fun a b => key b ≤ key a)
        (l.foldl (fun acc x => insertBy (fun a b => decide (key b < key a)) x acc) acc) by
    exact h [] (by simp)
  induction l with
  | nil => intro acc hacc; simpa using hacc
  | cons x xs ih =>
    intro acc hacc
    exact ih _ (insertBy_chain key x acc hacc)

theorem insertBy_mem {α : Type} (lt : α → α → Bool) (x a : α) :
    ∀ l : List α, a ∈ insertBy lt x l → a = x ∨ a ∈ l := by
  intro l
  induction l with
  | nil => intro h; simp [insertBy] at h; exact Or.inl h
  | cons y ys ih =>
    intro h
    rw [insertBy] at h
    by_cases hlt : lt x y
    · rw [if_pos hlt] at h
      rcases List.mem_cons.mp h with h | h
      · exact Or.inl h
      · exact Or.inr h
    · rw [if_neg hlt] at h
      rcases List.mem_cons.mp h with h | h
      · exact Or.inr (by simp [h])
      · rcases ih h with h | h
        · exact Or.inl h
        · exact Or.inr (List.mem_cons_of_mem _ h)

theorem sortBy_mem {α : Type} (lt : α → α → Bool) (l : List α) (a : α)
    (h : a ∈ sortBy lt l) : a ∈ l := by
  suffices hgen : ∀ (l : List α) (acc : List α),
      a ∈ l.foldl (fun acc x => insertBy lt x acc) acc → a ∈ acc ∨ a ∈ l by
    rcases hgen l [] h with h' | h'
    · simp at h'
    · exact h'
  intro l
  induction l with
  | nil => intro acc h'; exact Or.inl h'
  | cons x xs ih =>
    intro acc h'
    rcases ih _ h' with h'' | h''
    · rcases insertBy_mem lt x a acc h'' with h3 | h3
      · exact Or.inr (by simp [h3])
      · exact Or.inl h3
    · exact Or.inr (List.mem_cons_of_mem _ h'')

theorem diverseLoop_mem (numColors : ℕ) (a : RgbKey × ℕ) :
    ∀ (cs acc : List (RgbKey × ℕ)),
      a ∈ diverseLoop numColors cs acc → a ∈ acc ∨ a ∈ cs := by
  intro cs
  induction cs with
  | nil => intro acc h; exact Or.inl (by simpa [diverseLoop] using h)
  | cons c rest ih =>
    intro acc h
    rw [diverseLoop] at h
    by_cases h0 : acc.length = 0
    · rw [if_pos h0] at h
      rcases ih _ h with h' | h'
      · rcases List.mem_append.mp h' with h'' | h''
        · exact Or.inl h''
        · exact Or.inr (by simp at h''; simp [h''])
      · exact Or.inr (List.mem_cons_of_mem _ h')
    · rw [if_neg h0] at h
      revert h
      cases hB : (acc.all fun e => decide (60 < ((e.2 : ℤ) - c.2).natAbs)) <;>
        intro h <;>
        simp only [Bool.false_eq_true, eq_self_iff_true, if_false, if_true] at h
      · by_cases hbrk : numColors ≤ acc.length
        · rw [if_pos hbrk] at h
          exact Or.inl h
        · rw [if_neg hbrk] at h
          rcases ih _ h with h' | h'
          · exact Or.inl h'
          · exact Or.inr (List.mem_cons_of_mem _ h')
      · by_cases hbrk : numColors ≤ (acc ++ [c]).length
        · rw [if_pos hbrk] at h
          rcases List.mem_append.mp h with h' | h'
          · exact Or.inl h'
          · exact Or.inr (by simp at h'; simp [h'])
        · rw [if_neg hbrk] at h
          rcases ih _ h with h' | h'
          · rcases List.mem_append.mp h' with h'' | h''
            · exact Or.inl h''
            · exact Or.inr (by simp at h''; simp [h''])
          · exact Or.inr (List.mem_cons_of_mem _ h')

theorem fillLoop_mem (numColors : ℕ) (a : RgbKey × ℕ) :
    ∀ (cs acc : List (RgbKey × ℕ)),
      a ∈ fillLoop numColors cs acc → a ∈ acc ∨ a ∈ cs := by
  intro cs
  induction cs with
  | nil => intro acc h; exact Or.inl (by simpa [fillLoop] using h)
  | cons c rest ih =>
    intro acc h
    rw [fillLoop] at h
    revert h
    cases hB : (acc.any fun dc => decide (dc.1 = c.1)) <;>
      intro h <;>
      simp only [Bool.false_eq_true, eq_self_iff_true, if_false, if_true] at h
    · by_cases hbrk : numColors ≤ (acc ++ [c]).length
      · rw [if_pos hbrk] at h
        rcases List.mem_append.mp h with h' | h'
        · exact Or.inl h'
        · exact Or.inr (by simp at h'; simp [h'])
      · rw [if_neg hbrk] at h
        rcases ih _ h with h' | h'
        · rcases List.mem_append.mp h' with h'' | h''
          · exact Or.inl h''
          · exact Or.inr (by simp at h''; simp [h''])
        · exact Or.inr (List.mem_cons_of_mem _ h')
    · rcases ih _ h with h' | h'
      · exact Or.inl h'
      · exact Or.inr (List.mem_cons_of_mem _ h')

theorem diverseColors_mem (pixels : List Pixel) (numColors : ℕ)
    (a : RgbKey × ℕ) (h : a ∈ diverseColors pixels numColors) :
    a ∈ paletteCandidates pixels numColors := by
  rw [diverseColors] at h
  by_cases hlen : (diverseLoop numColors (paletteCandidates pixels numColors) []).length
      < numColors
  · rw [if_pos hlen] at h
    rcases fillLoop_mem numColors a _ _ h with h' | h'
    · rcases diverseLoop_mem numColors a _ _ h' with h'' | h''
      · simp at h''
      · exact h''
    · exact h'
  · rw [if_neg hlen] at h
    rcases diverseLoop_mem numColors a _ _ h with h' | h'
    · simp at h'
    · exact h'

theorem upsert_key_mem (key : RgbKey) (a : RgbKey × ℕ) :
    ∀ counts : List (RgbKey × ℕ), a ∈ upsert counts key →
      a.1 = key ∨ ∃ e ∈ counts, a.1 = e.1 := by
  intro counts
  induction counts with
  | nil => intro h; simp [upsert] at h; simp [h]
  | cons e rest ih =>
    intro h
    rw [upsert] at h
    by_cases he : e.1 = key
    · rw [if_pos he] at h
      rcases List.mem_cons.mp h with h' | h'
      · subst h'; exact Or.inl he
      · exact Or.inr ⟨_, List.mem_cons_of_mem _ h', rfl⟩
    · rw [if_neg he] at h
      rcases List.mem_cons.mp h with h' | h'
      · subst h'; exact Or.inr ⟨e, by simp, rfl⟩
      · rcases ih h' with h'' | ⟨e', he', hee⟩
        · exact Or.inl h''
        · exact Or.inr ⟨e', List.mem_cons_of_mem _ he', hee⟩

theorem colorCounts_key (pixels : List Pixel) (a : RgbKey × ℕ)
    (h : a ∈ colorCounts pixels) :
    ∃ p ∈ sampledPixels pixels,
      a.1 = (quantize p.1, quantize p.2.1, quantize p.2.2.1) := by
  rw [colorCounts] at h
  suffices hgen : ∀ (l : List Pixel) (acc : List (RgbKey × ℕ)),
      a ∈ l.foldl (fun counts p =>
        if keepPixel p then
          upsert counts (quantize p.1, quantize p.2.1, quantize p.2.2.1)
        else counts) acc →
      (∃ e ∈ acc, a.1 = e.1) ∨
        ∃ p ∈ l, a.1 = (quantize p.1, quantize p.2.1, quantize p.2.2.1) by
    rcases hgen (sampledPixels pixels) [] h with ⟨e, he, _⟩ | h'
    · simp at he
    · exact h'
  intro l
  induction l with
  | nil => intro acc h'; exact Or.inl ⟨a, h', rfl⟩
  | cons p rest ih =>
    intro acc h'
    simp only [List.foldl_cons] at h'
    by_cases hk : keepPixel p
    · rw [if_pos hk] at h'
      rcases ih _ h' with ⟨e, he, hee⟩ | ⟨p', hp', hq⟩
      · rcases upsert_key_mem _ e acc he with h'' | ⟨e', he', hee'⟩
        · exact Or.inr ⟨p, by simp, by rw [hee, h'']⟩
        · exact Or.inl ⟨e', he', by rw [hee, hee']⟩
      · exact Or.inr ⟨p', List.mem_cons_of_mem _ hp', hq⟩
    · rw [if_neg hk] at h'
      rcases ih _ h' with ⟨e, he, hee⟩ | ⟨p', hp', hq⟩
      · exact Or.inl ⟨e, he, hee⟩
      · exact Or.inr ⟨p', List.mem_cons_of_mem _ hp', hq⟩

theorem sampledPixels_subset (pixels : List Pixel) (p : Pixel)
    (h : p ∈ sampledPixels pixels) : p ∈ pixels := by
  rw [sampledPixels] at h
  obtain ⟨⟨i, q⟩, hmem, hq⟩ := List.mem_map.mp h
  have := List.of_mem_filter hmem
  have hmem' := List.mem_of_mem_filter hmem
  have hg := List.mem_enum_iff_getElem?.mp hmem'
  subst hq
  exact List.mem_iff_getElem?.mpr ⟨i, hg⟩

/-- Provenance: every selected palette entry carries its exact channel sum
and, when the image's bytes are in range, quantized channels ≤ 256. -/
theorem paletteCandidates_shape (pixels : List Pixel) (numColors : ℕ)
    (hb : ∀ p ∈ pixels, p.1 ≤ 255 ∧ p.2.1 ≤ 255 ∧ p.2.2.1 ≤ 255)
    (a : RgbKey × ℕ) (h : a ∈ paletteCandidates pixels numColors) :
    a.2 = a.1.1 + a.1.2.1 + a.1.2.2 ∧
      a.1.1 ≤ 256 ∧ a.1.2.1 ≤ 256 ∧ a.1.2.2 ≤ 256 := by
  rw [paletteCandidates] at h
  obtain ⟨c, hc, hac⟩ := List.mem_map.mp h
  obtain ⟨e, he, hce⟩ := List.mem_map.mp hc
  have he' : e ∈ sortBy (fun x y => decide (y.2 < x.2)) (colorCounts pixels) :=
    List.mem_of_mem_take he
  have he'' : e ∈ colorCounts pixels := sortBy_mem _ _ _ he'
  obtain ⟨p, hp, hkey⟩ := colorCounts_key pixels e he''
  obtain ⟨hr, hg, hbl⟩ := hb p (sampledPixels_subset pixels p hp)
  have hq : ∀ v : ℕ, v ≤ 255 → quantize v ≤ 256 := by
    intro v hv
    rw [quantize]
    omega
  subst hac
  constructor
  · rfl
  · rw [hce] at hkey
    rw [hkey]
    exact ⟨hq _ hr, hq _ hg, hq _ hbl⟩

/-- Hex round-trip: the claim-level lightness of the formatted hex string is
the mean of the clamped channels. -/
theorem specLightness_toHexColor (c : RgbKey) :
    specLightness (toHexColor c) =
      ((min 255 c.1 + min 255 c.2.1 + min 255 c.2.2 : ℕ) : ℚ) / 3 := by
  have hdig : ∀ d : ℕ, d < 16 → hexDigitVal (hexDigitChar d) = d := by decide
  have hrt : ∀ v : ℕ,
      16 * hexDigitVal (hexDigitChar (min 255 v / 16)) +
        hexDigitVal (hexDigitChar (min 255 v % 16)) = min 255 v := by
    intro v
    rw [hdig _ (by omega), hdig _ (by omega)]
    omega
  show ((16 * hexDigitVal (hexDigitChar (min 255 c.1 / 16)) +
      hexDigitVal (hexDigitChar (min 255 c.1 % 16)) +
      (16 * hexDigitVal (hexDigitChar (min 255 c.2.1 / 16)) +
        hexDigitVal (hexDigitChar (min 255 c.2.1 % 16))) +
      (16 * hexDigitVal (hexDigitChar (min 255 c.2.2 / 16)) +
        hexDigitVal (hexDigitChar (min 255 c.2.2 % 16))) : ℕ) : ℚ) / 3 = _
  rw [hrt, hrt, hrt]

theorem chain'_imp_mem {α : Type} {R S : α → α → Prop} {P : α → Prop}
    (himp : ∀ a b, P a → P b → R a b → S a b) :
    ∀ l : List α, (∀ e ∈ l, P e) → List.Chain' R l → List.Chain' S l := by
  intro l
  induction l with
  | nil => intro _ _; simp
  | cons x xs ih =>
    intro hP hR
    obtain ⟨hhead, hxs⟩ := List.chain'_cons'.mp hR
    refine List.chain'_cons'.mpr ⟨?_, ih (fun e he => hP e (List.mem_cons_of_mem _ he)) hxs⟩
    intro y hy
    have hymem : y ∈ xs := List.mem_of_mem_head? hy
    exact himp x y (hP x (by simp)) (hP y (List.mem_cons_of_mem _ hymem)) (hhead y hy)

/-- **C2, amended.** For every image whose bytes are in `[0, 255]` and every
requested count, the hex palette returned by `extractColorPalette` is sorted
from lightest to darkest up to hex clamping: adjacent entries satisfy
`lightness(i) ≥ lightness(i+1) − 1`, where lightness is the mean of the
parsed red, green and blue components.  (The internal sort is by the
pre-clamp quantized lightness; a quantized channel can reach 256 and is
clamped to 255 only during hex formatting, losing at most 1/3 per channel,
which is the only deviation from strict non-increasing order.) -/
theorem extractColorPalette_order (pixels : List Pixel) (numColors : ℕ)
    (hb : ∀ p ∈ pixels, p.1 ≤ 255 ∧ p.2.1 ≤ 255 ∧ p.2.2.1 ≤ 255) :
    List.Chain' (fun s t => specLightness t ≤ specLightness s + 1)
      (extractColorPalette pixels numColors) := by
  rw [extractColorPalette]
  rw [List.chain'_map]
  refine chain'_imp_mem (R := fun a b => b.2 ≤ a.2) (P := fun a =>
      a.2 = a.1.1 + a.1.2.1 + a.1.2.2 ∧
        a.1.1 ≤ 256 ∧ a.1.2.1 ≤ 256 ∧ a.1.2.2 ≤ 256) ?_ _ ?_ ?_
  · intro a b hPa hPb hab
    rw [specLightness_toHexColor, specLightness_toHexColor]
    obtain ⟨hsa, ha1, ha2, ha3⟩ := hPa
    obtain ⟨hsb, hb1, hb2, hb3⟩ := hPb
    have hn : min 255 b.1.1 + min 255 b.1.2.1 + min 255 b.1.2.2 ≤
        min 255 a.1.1 + min 255 a.1.2.1 + min 255 a.1.2.2 + 3 := by
      omega
    have hnQ : ((min 255 b.1.1 + min 255 b.1.2.1 + min 255 b.1.2.2 : ℕ) : ℚ) ≤
        ((min 255 a.1.1 + min 255 a.1.2.1 + min 255 a.1.2.2 : ℕ) : ℚ) + 3 := by
      push_cast
      exact_mod_cast hn
    linarith
  · intro e he
    exact paletteCandidates_shape pixels numColors hb e
      (diverseColors_mem pixels numColors e (sortBy_mem _ _ _ he))
  · exact sortBy_chain Prod.snd _

/-- Witness for the amended C2 theorem on a concrete 11-pixel image. -/
theorem extractColorPalette_order_witness :
    (∀ p ∈ ((250, 40, 0, 255) ::
        (List.replicate 9 ((0, 0, 0, 255) : Pixel) ++ [(96, 96, 96, 255)])),
      p.1 ≤ 255 ∧ p.2.1 ≤ 255 ∧ p.2.2.1 ≤ 255) ∧
      List.Chain' (fun s t => specLightness t ≤ specLightness s + 1)
        (extractColorPalette
          ((250, 40, 0, 255) ::
            (List.replicate 9 ((0, 0, 0, 255) : Pixel) ++ [(96, 96, 96, 255)])) 5) :=
  ⟨by decide, extractColorPalette_order _ 5 (by decide)⟩

/-! ## Box-blur engine (`BlurredAlbumCoverBackground`, `src/test.ts`
lines 838–1095)

Buffers are byte lists (`Uint8ClampedArray` contents).  The sliding-window
accumulators hold exact integers (every value accumulated is a sum of
bytes); an out-of-bounds typed-array read yields `undefined`, which poisons
the accumulator to `NaN` — modelled as `Option.none`.  A store
`output[i] = val * iarr` (with `iarr = 1/(2·radius+1)`) clamps to `[0, 255]`
and rounds half to even per the `Uint8ClampedArray` semantics, with `NaN`
stored as 0; an out-of-range store is ignored, exactly as `List.set` is.

`boxBlurHorizontal` and `boxBlurVertical` are textually identical up to the
traversal geometry: the horizontal pass walks each row (line start `y·width`,
stride 1, length `width`), the vertical pass walks each column (line start
`x`, stride `width`, length `height`).  `slideLine` embeds that shared loop
body once, parameterized by line start `p0`, stride `step` and length `n`;
each loop count below is the exact number of iterations of the corresponding
`for` loop in the source. -/

/-- A pixel buffer: flat byte list, 4 channels per pixel. -/
abbrev Buf := List ℕ

/-- Read channel `ch` of pixel `p` (`input[p * 4 + ch]`):
`none` models `undefined` from an out-of-bounds read. -/
def readPx (input : Buf) (p : ℕ) (ch : Fin 4) : Option ℤ :=
  (input[p * 4 + ch.val]?).map Int.ofNat

/-- Accumulator addition (`NaN` propagates). -/
def aAdd (v x : Option ℤ) : Option ℤ :=
  match v, x with
  | some a, some b => some (a + b)
  | _, _ => none

/-- `val += x - y` (`NaN` propagates). -/
def aAddSub (v x y : Option ℤ) : Option ℤ :=
  match v, x, y with
  | some a, some b, some c => some (a + b - c)
  | _, _, _ => none

/-- Round `num / d` to the nearest integer, ties to even (`d > 0`). -/
def roundHalfEven (num : ℤ) (d : ℕ) : ℤ :=
  let q := Int.fdiv num d
  let r := num - q * d
  if 2 * r < d then q
  else if (d : ℤ) < 2 * r then q + 1
  else if q % 2 = 0 then q else q + 1

/-- The `Uint8ClampedArray` store of `val * (1 / d)`: clamp to `[0, 255]`,
round half to even, `NaN` → 0. -/
def clampByte (v : Option ℤ) (d : ℕ) : ℕ :=
  match v with
  | none => 0
  | some num => (max 0 (min 255 (roundHalfEven num d))).toNat

/-- Store all four channels of pixel `p` (the four consecutive
`output[outIdx + ch] = val_ch * iarr` stores). -/
def write4 (out : Buf) (p : ℕ) (val : Fin 4 → Option ℤ) (d : ℕ) : Buf :=
  (((out.set (p * 4) (clampByte (val 0) d)).set (p * 4 + 1) (clampByte (val 1) d)).set
      (p * 4 + 2) (clampByte (val 2) d)).set (p * 4 + 3) (clampByte (val 3) d)

/-- The mutable locals of one line pass: target, left and right pixel
indices, the four channel accumulators, and the output buffer. -/
structure SlState where
  ti : ℕ
  li : ℕ
  ri : ℕ
  val : Fin 4 → Option ℤ
  out : Buf

/-- `k` iterations of a loop body. -/
def loopN {α : Type} (body : α → α) : ℕ → α → α
  | 0, s => s
  | k + 1, s => loopN body k (body s)

/-- First loop body (`for j = 0; j <= radius`): `val += input[ri] - fv`,
store at `ti`, advance `ri` and `ti`. -/
def slBody1 (input : Buf) (fv : Fin 4 → Option ℤ) (d step : ℕ)
    (s : SlState) : SlState :=
  let val := fun ch => aAddSub (s.val ch) (readPx input s.ri ch) (fv ch)
  { ti := s.ti + step, li := s.li, ri := s.ri + step, val := val,
    out := write4 s.out s.ti val d }

/-- Middle loop body: `val += input[ri] - input[li]`, store at `ti`, advance
all three indices. -/
def slBody2 (input : Buf) (d step : ℕ) (s : SlState) : SlState :=
  let val := fun ch => aAddSub (s.val ch) (readPx input s.ri ch) (readPx input s.li ch)
  { ti := s.ti + step, li := s.li + step, ri := s.ri + step, val := val,
    out := write4 s.out s.ti val d }

/-- Last loop body: `val += lv - input[li]`, store at `ti`, advance `li`
and `ti`. -/
def slBody3 (input : Buf) (lv : Fin 4 → Option ℤ) (d step : ℕ)
    (s : SlState) : SlState :=
  let val := fun ch => aAddSub (s.val ch) (lv ch) (readPx input s.li ch)
  { ti := s.ti + step, li := s.li + step, ri := s.ri, val := val,
    out := write4 s.out s.ti val d }

/-- One sliding-window pass along the line of pixels
`p0, p0 + step, …, p0 + (n−1)·step` (a row for the horizontal pass, a column
for the vertical pass), exactly as in `boxBlurHorizontal` /
`boxBlurVertical`: `fv`/`lv` are the first/last pixel of the line, the
accumulator is primed with `(radius+1)·fv` plus the first `radius` pixels,
then the three `for` loops run `radius+1`, `n − radius − (radius+1)` and
`radius` iterations respectively. -/
def slideLine (input : Buf) (p0 step n radius : ℕ) (out : Buf) : Buf :=
  let d := radius + radius + 1
  let fv := readPx input p0
  let lv := readPx input (p0 + (n - 1) * step)
  let val0 : Fin 4 → Option ℤ := fun ch => (fv ch).map (fun v => ((radius : ℤ) + 1) * v)
  let val1 : Fin 4 → Option ℤ := (List.range radius).foldl
    (fun val j => fun ch => aAdd (val ch) (readPx input (p0 + j * step) ch)) val0
  let s1 := loopN (slBody1 input fv d step) (radius + 1)
    { ti := p0, li := p0, ri := p0 + radius * step, val := val1, out := out }
  let s2 := loopN (slBody2 input d step) (n - radius - (radius + 1)) s1
  let s3 := loopN (slBody3 input lv d step) radius s2
  s3.out

/-- `boxBlurHorizontal` (`src/test.ts` lines 906–998): one sliding-window
pass along each row. -/
def boxBlurHorizontal (input out : Buf) (width height radius : ℕ) : Buf :=
  (List.range height).foldl
    (fun o y => slideLine input (y * width) 1 width radius o) out

/-- `boxBlurVertical` (`src/test.ts` lines 1003–1095): one sliding-window
pass along each column. -/
def boxBlurVertical (input out : Buf) (width height radius : ℕ) : Buf :=
  (List.range width).foldl
    (fun o x => slideLine input x width height radius o) out

/-- `boxBlur` (lines 888–901): horizontal pass into a fresh zeroed temp
buffer, then vertical pass into the target. -/
def boxBlur (source target : Buf) (width height radius : ℕ) : Buf :=
  let temp : Buf := List.replicate source.length 0
  boxBlurVertical (boxBlurHorizontal source temp width height radius)
    target width height radius

/-- `applyBlur` (lines 838–864): three box-blur passes with the radii from
`boxesForGaussian`, ping-ponging between the data copy and a zeroed buffer
(the returned buffer is `source` after the third swap). -/
def applyBlur (data : Buf) (width height : ℕ) (radius : ℚ) : Buf :=
  let boxes := boxesForGaussian radius 3
  let t0 : Buf := List.replicate data.length 0
  let p1 := boxBlur data t0 width height (boxes.getD 0 0)
  let p2 := boxBlur p1 data width height (boxes.getD 1 0)
  boxBlur p2 p1 width height (boxes.getD 2 0)

/-- **C5, counterexample.** With `width = 2`, `height = 2`, `radius = 1`
(window `2·radius+1 = 3` wider than the row), the horizontal pass reads
across rows: two inputs that agree on row 0 (first 8 bytes) but differ in
row 1 produce different row-0 outputs, so an output pixel of row 0 is not a
function of row 0 alone. -/
theorem boxBlurHorizontal_row_locality_cx :
    ((List.replicate 16 0 : Buf).take 8 =
      ((List.replicate 8 0 ++ [255, 255, 255, 255] ++ [0, 0, 0, 0] : Buf)).take 8) ∧
    (List.replicate 16 0 : Buf).length = 2 * 2 * 4 ∧
    ((List.replicate 8 0 ++ [255, 255, 255, 255] ++ [0, 0, 0, 0] : Buf)).length =
      2 * 2 * 4 ∧
    (boxBlurHorizontal (List.replicate 16 0) (List.replicate 16 0) 2 2 1).take 8 ≠
      (boxBlurHorizontal (List.replicate 8 0 ++ [255, 255, 255, 255] ++ [0, 0, 0, 0])
        (List.replicate 16 0) 2 2 1).take 8 := by
  refine ⟨by decide, by decide, by decide, by decide⟩

/-! ### Clamped-window characterization of a sliding-window pass -/

/-- Clamp a line position to `[0, n−1]` (the repeat-edge boundary policy). -/
def lineClamp (n : ℕ) (z : ℤ) : ℕ := (min ((n : ℤ) - 1) (max 0 z)).toNat

/-- The byte at (clamped) line position `z`, channel `ch`, of the line
starting at pixel `p0` with stride `step`. -/
def lineByte (input : Buf) (p0 step n : ℕ) (ch : Fin 4) (z : ℤ) : ℤ :=
  (((input[(p0 + lineClamp n z * step) * 4 + ch.val]?).getD 0 : ℕ) : ℤ)

/-- The clamped window sum around line position `x`: the sum of the
`2·radius+1` bytes at positions `x−radius … x+radius`, positions outside
`[0, n−1]` repeating the first/last pixel of the line. -/
def windowSum (input : Buf) (p0 step n radius : ℕ) (x : ℤ) (ch : Fin 4) : ℤ :=
  ((List.range (radius + radius + 1)).map
    (fun (t : ℕ) => lineByte input p0 step n ch (x - radius + t))).sum

/-- The specified output byte at line position `j`. -/
def specByte (input : Buf) (p0 step n radius : ℕ) (j : ℕ) (ch : Fin 4) : ℕ :=
  clampByte (some (windowSum input p0 step n radius j ch)) (radius + radius + 1)

/-- Byte index of channel `ch` of the line's `j`-th pixel. -/
def pixIdx (p0 step : ℕ) (j : ℕ) (ch : Fin 4) : ℕ := (p0 + j * step) * 4 + ch.val

theorem sum_shift (f : ℤ → ℤ) (x : ℤ) (d : ℕ) :
    ((List.range d).map (fun (t : ℕ) => f (x + 1 + t))).sum =
      ((List.range d).map (fun (t : ℕ) => f (x + t))).sum + f (x + d) - f x := by
  induction d with
  | zero => simp
  | succ d ih =>
    have hL : ((List.range (d + 1)).map (fun (t : ℕ) => f (x + 1 + t))).sum =
        ((List.range d).map (fun (t : ℕ) => f (x + 1 + t))).sum + f (x + 1 + d) := by
      rw [List.range_succ]; simp
    have hR : ((List.range (d + 1)).map (fun (t : ℕ) => f (x + t))).sum =
        ((List.range d).map (fun (t : ℕ) => f (x + t))).sum + f (x + d) := by
      rw [List.range_succ]; simp
    rw [hL, hR, ih]
    have h1 : x + 1 + (d : ℤ) = x + ((d + 1 : ℕ) : ℤ) := by push_cast; ring
    rw [h1]
    ring

theorem windowSum_succ (input : Buf) (p0 step n radius : ℕ) (x : ℤ)
    (ch : Fin 4) :
    windowSum input p0 step n radius (x + 1) ch =
      windowSum input p0 step n radius x ch +
        lineByte input p0 step n ch (x + 1 + radius) -
        lineByte input p0 step n ch (x - radius) := by
  unfold windowSum
  have harg : ∀ t : ℕ, x + 1 - (radius : ℤ) + t = x - radius + 1 + t :=
    fun t => by ring
  have h0 : ((List.range (radius + radius + 1)).map
        (fun (t : ℕ) => lineByte input p0 step n ch (x + 1 - radius + t))) =
      ((List.range (radius + radius + 1)).map
        (fun (t : ℕ) => lineByte input p0 step n ch (x - radius + 1 + t))) :=
    List.map_congr_left (fun (t : ℕ) _ => by rw [harg t])
  rw [h0]
  rw [sum_shift (fun z => lineByte input p0 step n ch z) (x - radius)
    (radius + radius + 1)]
  have h2 : x - (radius : ℤ) + ((radius + radius + 1 : ℕ) : ℤ) =
      x + 1 + (radius : ℤ) := by push_cast; ring
  rw [h2]

theorem lineClamp_of_nonpos (n : ℕ) (z : ℤ) (h : z ≤ 0) : lineClamp n z = 0 := by
  unfold lineClamp
  omega

theorem lineClamp_of_mem (n : ℕ) (j : ℕ) (h : j < n) :
    lineClamp n (j : ℤ) = j := by
  unfold lineClamp
  omega

theorem lineClamp_of_ge (n : ℕ) (z : ℤ) (hn : 1 ≤ n) (h : (n : ℤ) - 1 ≤ z) :
    lineClamp n z = n - 1 := by
  unfold lineClamp
  omega

/-- In-range read: channel `ch` of line pixel `j`. -/
theorem readPx_lineByte (input : Buf) (p0 step n : ℕ) (j : ℕ) (ch : Fin 4)
    (hj : j < n) (hin : (p0 + j * step) * 4 + 3 < input.length) :
    readPx input (p0 + j * step) ch =
      some (lineByte input p0 step n ch (j : ℤ)) := by
  unfold readPx lineByte
  rw [lineClamp_of_mem n j hj]
  have hidx : (p0 + j * step) * 4 + ch.val < input.length := by
    have := ch.isLt
    omega
  rw [List.getElem?_eq_getElem hidx]
  simp

/-- Reading the first pixel models any clamped-left window position. -/
theorem readPx_first (input : Buf) (p0 step n : ℕ) (z : ℤ) (ch : Fin 4)
    (hz : z ≤ 0) (hn : 1 ≤ n) (hin : (p0 + 0 * step) * 4 + 3 < input.length) :
    readPx input p0 ch = some (lineByte input p0 step n ch z) := by
  unfold readPx lineByte
  rw [lineClamp_of_nonpos n z hz]
  have hidx : p0 * 4 + ch.val < input.length := by
    have := ch.isLt
    omega
  rw [List.getElem?_eq_getElem (by simpa using hidx)]
  simp [List.getElem?_eq_getElem hidx]

/-- Reading the last pixel models any clamped-right window position. -/
theorem readPx_last (input : Buf) (p0 step n : ℕ) (z : ℤ) (ch : Fin 4)
    (hz : (n : ℤ) - 1 ≤ z) (hn : 1 ≤ n)
    (hin : (p0 + (n - 1) * step) * 4 + 3 < input.length) :
    readPx input (p0 + (n - 1) * step) ch =
      some (lineByte input p0 step n ch z) := by
  unfold readPx lineByte
  rw [lineClamp_of_ge n z hn hz]
  have hidx : (p0 + (n - 1) * step) * 4 + ch.val < input.length := by
    have := ch.isLt
    omega
  rw [List.getElem?_eq_getElem hidx]
  simp

theorem write4_length (out : Buf) (p : ℕ) (val : Fin 4 → Option ℤ) (d : ℕ) :
    (write4 out p val d).length = out.length := by
  simp [write4]

theorem write4_get_same (out : Buf) (p : ℕ) (val : Fin 4 → Option ℤ) (d : ℕ)
    (hlen : p * 4 + 3 < out.length) (ch : Fin 4) :
    (write4 out p val d)[p * 4 + ch.val]? = some (clampByte (val ch) d) := by
  unfold write4
  have h0 : p * 4 < out.length := by omega
  have h1 : p * 4 + 1 < out.length := by omega
  have h2 : p * 4 + 2 < out.length := by omega
  have h3 : p * 4 + 3 < out.length := hlen
  fin_cases ch <;>
    simp [List.getElem?_set_ne, List.getElem?_set_self, List.length_set, h0, h1, h2, h3]

theorem write4_get_other (out : Buf) (p : ℕ) (val : Fin 4 → Option ℤ) (d : ℕ)
    (i : ℕ) (hne : ∀ ch : Fin 4, i ≠ p * 4 + ch.val) :
    (write4 out p val d)[i]? = out[i]? := by
  unfold write4
  have h0 := hne 0
  have h1 := hne 1
  have h2 := hne 2
  have h3 := hne 3
  simp only [Fin.val_zero, Fin.val_one, Fin.val_two] at h0 h1 h2 h3
  rw [List.getElem?_set_ne (by omega), List.getElem?_set_ne (by omega),
    List.getElem?_set_ne (by omega), List.getElem?_set_ne (by omega)]

theorem pixIdx_inj (p0 step : ℕ) (hstep : 1 ≤ step) (j1 j2 : ℕ)
    (c1 c2 : Fin 4) (h : pixIdx p0 step j1 c1 = pixIdx p0 step j2 c2) :
    j1 = j2 ∧ c1 = c2 := by
  unfold pixIdx at h
  have hc1 := c1.isLt
  have hc2 := c2.isLt
  have hpix : p0 + j1 * step = p0 + j2 * step ∧ c1.val = c2.val := by
    constructor <;> omega
  obtain ⟨hp, hc⟩ := hpix
  have hj : j1 * step = j2 * step := by omega
  have : j1 = j2 := Nat.eq_of_mul_eq_mul_right (by omega) hj
  exact ⟨this, Fin.ext hc⟩

/-- After a (partial) pass, line positions `a ≤ j < b` carry their specified
clamped-window bytes and every other index is untouched. -/
def WrittenCols (input : Buf) (p0 step n radius : ℕ) (a b : ℕ)
    (base res : Buf) : Prop :=
  res.length = base.length ∧
  (∀ j, a ≤ j → j < b → ∀ ch : Fin 4,
    res[pixIdx p0 step j ch]? = some (specByte input p0 step n radius j ch)) ∧
  (∀ i, (∀ j, a ≤ j → j < b → ∀ ch : Fin 4, i ≠ pixIdx p0 step j ch) →
    res[i]? = base[i]?)

theorem writtenCols_refl (input : Buf) (p0 step n radius : ℕ) (a : ℕ)
    (base : Buf) : WrittenCols input p0 step n radius a a base base :=
  ⟨rfl, fun j hj hj' _ => by omega, fun i _ => rfl⟩

theorem writtenCols_trans (input : Buf) (p0 step n radius : ℕ)
    (hstep : 1 ≤ step) (a b c : ℕ) (hab : a ≤ b) (hbc : b ≤ c)
    (base mid res : Buf)
    (h1 : WrittenCols input p0 step n radius a b base mid)
    (h2 : WrittenCols input p0 step n radius b c mid res) :
    WrittenCols input p0 step n radius a c base res := by
  obtain ⟨hl1, hw1, ho1⟩ := h1
  obtain ⟨hl2, hw2, ho2⟩ := h2
  refine ⟨hl2.trans hl1, ?_, ?_⟩
  · intro j hja hjc ch
    rcases Nat.lt_or_ge j b with hjb | hjb
    · have hkeep : res[pixIdx p0 step j ch]? = mid[pixIdx p0 step j ch]? := by
        apply ho2
        intro j' hj'b hj'c ch' hcontra
        obtain ⟨hj, _⟩ := pixIdx_inj p0 step hstep j j' ch ch' hcontra
        omega
      rw [hkeep]
      exact hw1 j hja hjb ch
    · exact hw2 j hjb hjc ch
  · intro i hi
    have hmid : res[i]? = mid[i]? :=
      ho2 i (fun j hja hjc ch => hi j (by omega) hjc ch)
    rw [hmid]
    exact ho1 i (fun j hja hjb ch => hi j hja (by omega) ch)

set_option maxHeartbeats 1000000 in
theorem slBody1_step (input : Buf) (p0 step n radius L : ℕ)
    (hstep : 1 ≤ step) (hn : radius + radius + 1 ≤ n)
    (hin : ∀ j < n, (p0 + j * step) * 4 + 3 < input.length)
    (hout : ∀ j < n, (p0 + j * step) * 4 + 3 < L)
    (x0 : ℕ) (hx0 : x0 ≤ radius) (s : SlState)
    (hti : s.ti = p0 + x0 * step) (hri : s.ri = p0 + (x0 + radius) * step)
    (hval : ∀ ch, s.val ch =
      some (windowSum input p0 step n radius ((x0 : ℤ) - 1) ch))
    (hlen : s.out.length = L) :
    (slBody1 input (readPx input p0) (radius + radius + 1) step s).ti =
        p0 + (x0 + 1) * step ∧
      (slBody1 input (readPx input p0) (radius + radius + 1) step s).li = s.li ∧
      (slBody1 input (readPx input p0) (radius + radius + 1) step s).ri =
        p0 + (x0 + 1 + radius) * step ∧
      (∀ ch, (slBody1 input (readPx input p0) (radius + radius + 1) step s).val ch =
        some (windowSum input p0 step n radius (((x0 + 1 : ℕ) : ℤ) - 1) ch)) ∧
      (slBody1 input (readPx input p0) (radius + radius + 1) step s).out.length = L ∧
      WrittenCols input p0 step n radius x0 (x0 + 1) s.out
        (slBody1 input (readPx input p0) (radius + radius + 1) step s).out := by
  have hx0n : x0 < n := by omega
  have hx0rn : x0 + radius < n := by omega
  have h0n : 0 < n := by omega
  have hn1 : 1 ≤ n := by omega
  have hval' : ∀ ch,
      aAddSub (s.val ch) (readPx input s.ri ch) (readPx input p0 ch) =
        some (windowSum input p0 step n radius (((x0 + 1 : ℕ) : ℤ) - 1) ch) := by
    intro ch
    rw [hri]
    rw [readPx_lineByte input p0 step n (x0 + radius) ch hx0rn (hin _ hx0rn)]
    rw [readPx_first input p0 step n ((x0 : ℤ) - 1 - radius) ch (by
        have : (x0 : ℤ) ≤ radius := by exact_mod_cast hx0
        omega) hn1 (by simpa using hin 0 h0n)]
    rw [hval ch]
    simp only [aAddSub]
    congr 1
    have e0 : ((x0 + 1 : ℕ) : ℤ) - 1 = ((x0 : ℤ) - 1) + 1 := by push_cast; ring
    rw [e0, windowSum_succ]
    have e1 : ((x0 + radius : ℕ) : ℤ) = (x0 : ℤ) - 1 + 1 + radius := by
      push_cast; ring
    rw [e1]
  have houtdef : (slBody1 input (readPx input p0) (radius + radius + 1) step s).out =
      write4 s.out s.ti
        (fun ch => aAddSub (s.val ch) (readPx input s.ri ch) (readPx input p0 ch))
        (radius + radius + 1) := rfl
  refine ⟨?_, rfl, ?_, ?_, ?_, ?_⟩
  · show s.ti + step = p0 + (x0 + 1) * step
    rw [hti]; ring
  · show s.ri + step = p0 + (x0 + 1 + radius) * step
    rw [hri]; ring
  · intro ch
    exact hval' ch
  · rw [houtdef, write4_length, hlen]
  · refine ⟨?_, ?_, ?_⟩
    · rw [houtdef, write4_length]
    · intro j hj1 hj2 ch
      have hj : j = x0 := by omega
      subst hj
      rw [houtdef]
      have hpix : pixIdx p0 step j ch = s.ti * 4 + ch.val := by
        rw [hti, pixIdx]
      rw [hpix]
      rw [write4_get_same s.out s.ti _ _ (by rw [hti, hlen]; exact hout j hx0n) ch]
      show some (clampByte
          (aAddSub (s.val ch) (readPx input s.ri ch) (readPx input p0 ch))
          (radius + radius + 1)) = some (specByte input p0 step n radius j ch)
      rw [hval' ch]
      have ej : ((j + 1 : ℕ) : ℤ) - 1 = (j : ℤ) := by push_cast; ring
      rw [ej]
      rfl
    · intro i hi
      rw [houtdef]
      apply write4_get_other
      intro ch
      have := hi x0 (le_refl _) (by omega) ch
      rw [pixIdx, ← hti] at this
      exact this

theorem loop1_spec (input : Buf) (p0 step n radius L : ℕ)
    (hstep : 1 ≤ step) (hn : radius + radius + 1 ≤ n)
    (hin : ∀ j < n, (p0 + j * step) * 4 + 3 < input.length)
    (hout : ∀ j < n, (p0 + j * step) * 4 + 3 < L) :
    ∀ (k x0 : ℕ) (s : SlState), x0 + k ≤ radius + 1 →
      s.ti = p0 + x0 * step →
      s.ri = p0 + (x0 + radius) * step →
      (∀ ch, s.val ch =
        some (windowSum input p0 step n radius ((x0 : ℤ) - 1) ch)) →
      s.out.length = L →
      (loopN (slBody1 input (readPx input p0) (radius + radius + 1) step) k s).ti =
          p0 + (x0 + k) * step ∧
        (loopN (slBody1 input (readPx input p0) (radius + radius + 1) step) k s).li =
          s.li ∧
        (loopN (slBody1 input (readPx input p0) (radius + radius + 1) step) k s).ri =
          p0 + (x0 + k + radius) * step ∧
        (∀ ch, (loopN (slBody1 input (readPx input p0) (radius + radius + 1) step)
            k s).val ch =
          some (windowSum input p0 step n radius (((x0 + k : ℕ) : ℤ) - 1) ch)) ∧
        (loopN (slBody1 input (readPx input p0) (radius + radius + 1) step)
          k s).out.length = L ∧
        WrittenCols input p0 step n radius x0 (x0 + k) s.out
          (loopN (slBody1 input (readPx input p0) (radius + radius + 1) step)
            k s).out := by
  intro k
  induction k with
  | zero =>
    intro x0 s hk hti hri hval hlen
    refine ⟨by simpa using hti, rfl, by simpa using hri, ?_, hlen, ?_⟩
    · simpa using hval
    · simpa using writtenCols_refl input p0 step n radius x0 s.out
  | succ k ih =>
    intro x0 s hk hti hri hval hlen
    rw [loopN]
    obtain ⟨hti', hli', hri', hval', hlen', hw'⟩ :=
      slBody1_step input p0 step n radius L hstep hn hin hout x0 (by omega)
        s hti hri hval hlen
    obtain ⟨ihti, ihli, ihri, ihval, ihlen, ihw⟩ :=
      ih (x0 + 1) _ (by omega) hti' hri' hval' hlen'
    have hxk : x0 + 1 + k = x0 + (k + 1) := by omega
    refine ⟨by rw [ihti, hxk], by rw [ihli, hli'], by rw [ihri, hxk], ?_,
      ihlen, ?_⟩
    · intro ch
      rw [ihval ch, hxk]
    · have := writtenCols_trans input p0 step n radius hstep x0 (x0 + 1)
        (x0 + 1 + k) (by omega) (by omega) s.out _ _ hw' ihw
      rw [hxk] at this
      exact this

set_option maxHeartbeats 1000000 in
theorem slBody2_step (input : Buf) (p0 step n radius L : ℕ)
    (hstep : 1 ≤ step) (hn : radius + radius + 1 ≤ n)
    (hin : ∀ j < n, (p0 + j * step) * 4 + 3 < input.length)
    (hout : ∀ j < n, (p0 + j * step) * 4 + 3 < L)
    (m0 : ℕ) (hm0 : radius + radius + 1 + m0 < n) (s : SlState)
    (hti : s.ti = p0 + (radius + 1 + m0) * step)
    (hli : s.li = p0 + m0 * step)
    (hri : s.ri = p0 + (radius + radius + 1 + m0) * step)
    (hval : ∀ ch, s.val ch =
      some (windowSum input p0 step n radius ((radius + m0 : ℕ) : ℤ) ch))
    (hlen : s.out.length = L) :
    (slBody2 input (radius + radius + 1) step s).ti =
        p0 + (radius + 1 + (m0 + 1)) * step ∧
      (slBody2 input (radius + radius + 1) step s).li = p0 + (m0 + 1) * step ∧
      (slBody2 input (radius + radius + 1) step s).ri =
        p0 + (radius + radius + 1 + (m0 + 1)) * step ∧
      (∀ ch, (slBody2 input (radius + radius + 1) step s).val ch =
        some (windowSum input p0 step n radius ((radius + (m0 + 1) : ℕ) : ℤ) ch)) ∧
      (slBody2 input (radius + radius + 1) step s).out.length = L ∧
      WrittenCols input p0 step n radius (radius + 1 + m0) (radius + 1 + m0 + 1)
        s.out (slBody2 input (radius + radius + 1) step s).out := by
  have hm0n : m0 < n := by omega
  have htin : radius + 1 + m0 < n := by omega
  have hval' : ∀ ch,
      aAddSub (s.val ch) (readPx input s.ri ch) (readPx input s.li ch) =
        some (windowSum input p0 step n radius ((radius + (m0 + 1) : ℕ) : ℤ) ch) := by
    intro ch
    rw [hri, hli]
    rw [readPx_lineByte input p0 step n (radius + radius + 1 + m0) ch hm0 (hin _ hm0)]
    rw [readPx_lineByte input p0 step n m0 ch hm0n (hin _ hm0n)]
    rw [hval ch]
    simp only [aAddSub]
    congr 1
    have e0 : ((radius + (m0 + 1) : ℕ) : ℤ) = ((radius + m0 : ℕ) : ℤ) + 1 := by
      push_cast; ring
    rw [e0, windowSum_succ]
    have e1 : ((radius + radius + 1 + m0 : ℕ) : ℤ) =
        ((radius + m0 : ℕ) : ℤ) + 1 + radius := by push_cast; ring
    have e2 : ((m0 : ℕ) : ℤ) = ((radius + m0 : ℕ) : ℤ) - radius := by
      push_cast; ring
    rw [e1, e2]
  have houtdef : (slBody2 input (radius + radius + 1) step s).out =
      write4 s.out s.ti
        (fun ch => aAddSub (s.val ch) (readPx input s.ri ch) (readPx input s.li ch))
        (radius + radius + 1) := rfl
  refine ⟨?_, ?_, ?_, ?_, ?_, ?_⟩
  · show s.ti + step = p0 + (radius + 1 + (m0 + 1)) * step
    rw [hti]; ring
  · show s.li + step = p0 + (m0 + 1) * step
    rw [hli]; ring
  · show s.ri + step = p0 + (radius + radius + 1 + (m0 + 1)) * step
    rw [hri]; ring
  · intro ch
    exact hval' ch
  · rw [houtdef, write4_length, hlen]
  · refine ⟨?_, ?_, ?_⟩
    · rw [houtdef, write4_length]
    · intro j hj1 hj2 ch
      have hj : j = radius + 1 + m0 := by omega
      rw [hj, houtdef]
      have hpix : pixIdx p0 step (radius + 1 + m0) ch = s.ti * 4 + ch.val := by
        rw [hti, pixIdx]
      rw [hpix]
      rw [write4_get_same s.out s.ti _ _
        (by rw [hti, hlen]; exact hout _ htin) ch]
      show some (clampByte
          (aAddSub (s.val ch) (readPx input s.ri ch) (readPx input s.li ch))
          (radius + radius + 1)) =
        some (specByte input p0 step n radius (radius + 1 + m0) ch)
      rw [hval' ch]
      have ej : ((radius + (m0 + 1) : ℕ) : ℤ) = ((radius + 1 + m0 : ℕ) : ℤ) := by
        push_cast; ring
      rw [ej]
      rfl
    · intro i hi
      rw [houtdef]
      apply write4_get_other
      intro ch
      have := hi (radius + 1 + m0) (le_refl _) (by omega) ch
      rw [pixIdx, ← hti] at this
      exact this

theorem loop2_spec (input : Buf) (p0 step n radius L : ℕ)
    (hstep : 1 ≤ step) (hn : radius + radius + 1 ≤ n)
    (hin : ∀ j < n, (p0 + j * step) * 4 + 3 < input.length)
    (hout : ∀ j < n, (p0 + j * step) * 4 + 3 < L) :
    ∀ (k m0 : ℕ) (s : SlState), radius + radius + 1 + m0 + k ≤ n →
      s.ti = p0 + (radius + 1 + m0) * step →
      s.li = p0 + m0 * step →
      s.ri = p0 + (radius + radius + 1 + m0) * step →
      (∀ ch, s.val ch =
        some (windowSum input p0 step n radius ((radius + m0 : ℕ) : ℤ) ch)) →
      s.out.length = L →
      (loopN (slBody2 input (radius + radius + 1) step) k s).ti =
          p0 + (radius + 1 + (m0 + k)) * step ∧
        (loopN (slBody2 input (radius + radius + 1) step) k s).li =
          p0 + (m0 + k) * step ∧
        (loopN (slBody2 input (radius + radius + 1) step) k s).ri =
          p0 + (radius + radius + 1 + (m0 + k)) * step ∧
        (∀ ch, (loopN (slBody2 input (radius + radius + 1) step) k s).val ch =
          some (windowSum input p0 step n radius ((radius + (m0 + k) : ℕ) : ℤ) ch)) ∧
        (loopN (slBody2 input (radius + radius + 1) step) k s).out.length = L ∧
        WrittenCols input p0 step n radius (radius + 1 + m0) (radius + 1 + m0 + k)
          s.out (loopN (slBody2 input (radius + radius + 1) step) k s).out := by
  intro k
  induction k with
  | zero =>
    intro m0 s hk hti hli hri hval hlen
    refine ⟨by simpa using hti, by simpa using hli, by simpa using hri, ?_,
      hlen, ?_⟩
    · simpa using hval
    · simpa using writtenCols_refl input p0 step n radius (radius + 1 + m0) s.out
  | succ k ih =>
    intro m0 s hk hti hli hri hval hlen
    rw [loopN]
    obtain ⟨hti', hli', hri', hval', hlen', hw'⟩ :=
      slBody2_step input p0 step n radius L hstep hn hin hout m0 (by omega)
        s hti hli hri hval hlen
    obtain ⟨ihti, ihli, ihri, ihval, ihlen, ihw⟩ :=
      ih (m0 + 1) _ (by omega) hti' hli' hri' hval' hlen'
    have hxk : m0 + 1 + k = m0 + (k + 1) := by omega
    refine ⟨by rw [ihti, hxk], by rw [ihli, hxk], by rw [ihri, hxk], ?_,
      ihlen, ?_⟩
    · intro ch
      rw [ihval ch, hxk]
    · have := writtenCols_trans input p0 step n radius hstep (radius + 1 + m0)
        (radius + 1 + m0 + 1) (radius + 1 + (m0 + 1) + k) (by omega) (by omega)
        s.out _ _ hw' (by
          have h := ihw
          have he : radius + 1 + (m0 + 1) = radius + 1 + m0 + 1 := by omega
          rw [he] at h
          exact h)
      have he2 : radius + 1 + (m0 + 1) + k = radius + 1 + m0 + (k + 1) := by omega
      rw [he2] at this
      exact this

set_option maxHeartbeats 1000000 in
theorem slBody3_step (input : Buf) (p0 step n radius L : ℕ)
    (hstep : 1 ≤ step) (hn : radius + radius + 1 ≤ n)
    (hin : ∀ j < n, (p0 + j * step) * 4 + 3 < input.length)
    (hout : ∀ j < n, (p0 + j * step) * 4 + 3 < L)
    (m0 : ℕ) (hm0 : m0 < radius) (s : SlState)
    (hti : s.ti = p0 + (n - radius + m0) * step)
    (hli : s.li = p0 + (n - (radius + radius + 1) + m0) * step)
    (hval : ∀ ch, s.val ch =
      some (windowSum input p0 step n radius ((n - radius - 1 + m0 : ℕ) : ℤ) ch))
    (hlen : s.out.length = L) :
    (slBody3 input (readPx input (p0 + (n - 1) * step)) (radius + radius + 1) step
        s).ti = p0 + (n - radius + (m0 + 1)) * step ∧
      (slBody3 input (readPx input (p0 + (n - 1) * step)) (radius + radius + 1) step
        s).li = p0 + (n - (radius + radius + 1) + (m0 + 1)) * step ∧
      (slBody3 input (readPx input (p0 + (n - 1) * step)) (radius + radius + 1) step
        s).ri = s.ri ∧
      (∀ ch, (slBody3 input (readPx input (p0 + (n - 1) * step))
          (radius + radius + 1) step s).val ch =
        some (windowSum input p0 step n radius
          ((n - radius - 1 + (m0 + 1) : ℕ) : ℤ) ch)) ∧
      (slBody3 input (readPx input (p0 + (n - 1) * step))
        (radius + radius + 1) step s).out.length = L ∧
      WrittenCols input p0 step n radius (n - radius + m0) (n - radius + m0 + 1)
        s.out (slBody3 input (readPx input (p0 + (n - 1) * step))
          (radius + radius + 1) step s).out := by
  have hn1 : 1 ≤ n := by omega
  have hlin : n - (radius + radius + 1) + m0 < n := by omega
  have htin : n - radius + m0 < n := by omega
  have hval' : ∀ ch,
      aAddSub (s.val ch) (readPx input (p0 + (n - 1) * step) ch)
          (readPx input s.li ch) =
        some (windowSum input p0 step n radius
          ((n - radius - 1 + (m0 + 1) : ℕ) : ℤ) ch) := by
    intro ch
    rw [hli]
    rw [readPx_last input p0 step n
      (((n - radius - 1 + m0 : ℕ) : ℤ) + 1 + radius) ch (by omega) hn1
      (hin _ (by omega))]
    rw [readPx_lineByte input p0 step n (n - (radius + radius + 1) + m0) ch
      hlin (hin _ hlin)]
    rw [hval ch]
    simp only [aAddSub]
    congr 1
    have e0 : ((n - radius - 1 + (m0 + 1) : ℕ) : ℤ) =
        ((n - radius - 1 + m0 : ℕ) : ℤ) + 1 := by omega
    rw [e0, windowSum_succ]
    have e2 : ((n - (radius + radius + 1) + m0 : ℕ) : ℤ) =
        ((n - radius - 1 + m0 : ℕ) : ℤ) - radius := by omega
    rw [e2]
  have houtdef : (slBody3 input (readPx input (p0 + (n - 1) * step))
      (radius + radius + 1) step s).out =
      write4 s.out s.ti
        (fun ch => aAddSub (s.val ch) (readPx input (p0 + (n - 1) * step) ch)
          (readPx input s.li ch))
        (radius + radius + 1) := rfl
  refine ⟨?_, ?_, rfl, ?_, ?_, ?_⟩
  · show s.ti + step = p0 + (n - radius + (m0 + 1)) * step
    rw [hti]; ring
  · show s.li + step = p0 + (n - (radius + radius + 1) + (m0 + 1)) * step
    rw [hli]; ring
  · intro ch
    exact hval' ch
  · rw [houtdef, write4_length, hlen]
  · refine ⟨?_, ?_, ?_⟩
    · rw [houtdef, write4_length]
    · intro j hj1 hj2 ch
      have hj : j = n - radius + m0 := by omega
      rw [hj, houtdef]
      have hpix : pixIdx p0 step (n - radius + m0) ch = s.ti * 4 + ch.val := by
        rw [hti, pixIdx]
      rw [hpix]
      rw [write4_get_same s.out s.ti _ _
        (by rw [hti, hlen]; exact hout _ htin) ch]
      show some (clampByte
          (aAddSub (s.val ch) (readPx input (p0 + (n - 1) * step) ch)
            (readPx input s.li ch))
          (radius + radius + 1)) =
        some (specByte input p0 step n radius (n - radius + m0) ch)
      rw [hval' ch]
      have ej : ((n - radius - 1 + (m0 + 1) : ℕ) : ℤ) =
          ((n - radius + m0 : ℕ) : ℤ) := by omega
      rw [ej]
      rfl
    · intro i hi
      rw [houtdef]
      apply write4_get_other
      intro ch
      have := hi (n - radius + m0) (le_refl _) (by omega) ch
      rw [pixIdx, ← hti] at this
      exact this

theorem loop3_spec (input : Buf) (p0 step n radius L : ℕ)
    (hstep : 1 ≤ step) (hn : radius + radius + 1 ≤ n)
    (hin : ∀ j < n, (p0 + j * step) * 4 + 3 < input.length)
    (hout : ∀ j < n, (p0 + j * step) * 4 + 3 < L) :
    ∀ (k m0 : ℕ) (s : SlState), m0 + k ≤ radius →
      s.ti = p0 + (n - radius + m0) * step →
      s.li = p0 + (n - (radius + radius + 1) + m0) * step →
      (∀ ch, s.val ch =
        some (windowSum input p0 step n radius ((n - radius - 1 + m0 : ℕ) : ℤ) ch)) →
      s.out.length = L →
      (loopN (slBody3 input (readPx input (p0 + (n - 1) * step))
          (radius + radius + 1) step) k s).out.length = L ∧
        WrittenCols input p0 step n radius (n - radius + m0) (n - radius + m0 + k)
          s.out (loopN (slBody3 input (readPx input (p0 + (n - 1) * step))
            (radius + radius + 1) step) k s).out := by
  intro k
  induction k with
  | zero =>
    intro m0 s hk hti hli hval hlen
    exact ⟨hlen, by simpa using
      writtenCols_refl input p0 step n radius (n - radius + m0) s.out⟩
  | succ k ih =>
    intro m0 s hk hti hli hval hlen
    rw [loopN]
    obtain ⟨hti', hli', hri', hval', hlen', hw'⟩ :=
      slBody3_step input p0 step n radius L hstep hn hin hout m0 (by omega)
        s hti hli hval hlen
    obtain ⟨ihlen, ihw⟩ := ih (m0 + 1) _ (by omega) hti' hli' hval' hlen'
    refine ⟨ihlen, ?_⟩
    have := writtenCols_trans input p0 step n radius hstep (n - radius + m0)
      (n - radius + m0 + 1) (n - radius + (m0 + 1) + k) (by omega) (by omega)
      s.out _ _ hw' (by
        have h := ihw
        have he : n - radius + (m0 + 1) = n - radius + m0 + 1 := by omega
        rw [he] at h
        exact h)
    have he2 : n - radius + (m0 + 1) + k = n - radius + m0 + (k + 1) := by omega
    rw [he2] at this
    exact this

theorem lineByte_nonpos (input : Buf) (p0 step n : ℕ) (ch : Fin 4) (z : ℤ)
    (hz : z ≤ 0) :
    lineByte input p0 step n ch z = lineByte input p0 step n ch 0 := by
  unfold lineByte
  rw [lineClamp_of_nonpos n z hz, lineClamp_of_nonpos n 0 (le_refl _)]

theorem prime_val_aux (input : Buf) (p0 step n radius : ℕ)
    (hn : radius + radius + 1 ≤ n)
    (hin : ∀ j < n, (p0 + j * step) * 4 + 3 < input.length) :
    ∀ m, m ≤ radius → ∀ ch : Fin 4,
      ((List.range m).foldl
        (fun val j => fun ch => aAdd (val ch) (readPx input (p0 + j * step) ch))
        (fun ch => ((readPx input p0) ch).map (fun v => ((radius : ℤ) + 1) * v))) ch =
      some (((radius : ℤ) + 1) * lineByte input p0 step n ch 0 +
        ((List.range m).map (fun (j : ℕ) => lineByte input p0 step n ch (j : ℤ))).sum) := by
  intro m
  induction m with
  | zero =>
    intro hm ch
    have h0n : 0 < n := by omega
    simp only [List.range_zero, List.foldl_nil, List.map_nil, List.sum_nil, add_zero]
    rw [readPx_first input p0 step n 0 ch (le_refl _) (by omega)
      (by simpa using hin 0 h0n)]
    rfl
  | succ m ih =>
    intro hm ch
    have hmn : m < n := by omega
    rw [List.range_succ, List.foldl_append, List.foldl_cons, List.foldl_nil]
    show aAdd (((List.range m).foldl
        (fun val j => fun ch => aAdd (val ch) (readPx input (p0 + j * step) ch))
        (fun ch => ((readPx input p0) ch).map
          (fun v => ((radius : ℤ) + 1) * v))) ch)
      (readPx input (p0 + m * step) ch) = _
    rw [ih (by omega) ch]
    rw [readPx_lineByte input p0 step n m ch hmn (hin _ hmn)]
    simp only [aAdd]
    congr 1
    rw [List.map_append, List.sum_append]
    simp only [List.map_cons, List.map_nil, List.sum_cons, List.sum_nil]
    ring

theorem prime_val (input : Buf) (p0 step n radius : ℕ)
    (hn : radius + radius + 1 ≤ n)
    (hin : ∀ j < n, (p0 + j * step) * 4 + 3 < input.length) (ch : Fin 4) :
    ((List.range radius).foldl
      (fun val j => fun ch => aAdd (val ch) (readPx input (p0 + j * step) ch))
      (fun ch => ((readPx input p0) ch).map (fun v => ((radius : ℤ) + 1) * v))) ch =
    some (windowSum input p0 step n radius (-1) ch) := by
  rw [prime_val_aux input p0 step n radius hn hin radius (le_refl _) ch]
  congr 1
  unfold windowSum
  have hsplit : radius + radius + 1 = (radius + 1) + radius := by omega
  rw [hsplit, List.range_add, List.map_append, List.sum_append]
  have hfirst : ((List.range (radius + 1)).map
      (fun (t : ℕ) => lineByte input p0 step n ch (-1 - radius + t))).sum =
      ((radius : ℤ) + 1) * lineByte input p0 step n ch 0 := by
    have hconst : ((List.range (radius + 1)).map
        (fun (t : ℕ) => lineByte input p0 step n ch (-1 - radius + t))) =
        List.replicate (radius + 1) (lineByte input p0 step n ch 0) := by
      rw [show List.replicate (radius + 1) (lineByte input p0 step n ch 0) =
          (List.range (radius + 1)).map
            (fun (_ : ℕ) => lineByte input p0 step n ch 0) from by
        rw [List.map_const', List.length_range]]
      apply List.map_congr_left
      intro t ht
      have htr : t ≤ radius := by
        have := List.mem_range.mp ht
        omega
      apply lineByte_nonpos
      have : (t : ℤ) ≤ radius := by exact_mod_cast htr
      omega
    rw [hconst, List.sum_replicate]
    rw [nsmul_eq_mul]
    push_cast
    ring
  have hsecond : (((List.range radius).map ((radius + 1) + ·)).map
      (fun (t : ℕ) => lineByte input p0 step n ch (-1 - radius + t))).sum =
      ((List.range radius).map
        (fun (j : ℕ) => lineByte input p0 step n ch (j : ℤ))).sum := by
    rw [List.map_map]
    congr 1
    apply List.map_congr_left
    intro t _
    show lineByte input p0 step n ch (-1 - radius + ((radius + 1) + t : ℕ)) = _
    congr 1
    push_cast
    ring
  rw [hfirst, hsecond]

/-- The clamped-window characterization of one sliding-window line pass:
provided the window fits in the line (`2·radius + 1 ≤ n`), every line pixel's
output channel is the clamped rounding of the clamp-to-edge window sum, and
no other byte of the buffer is touched. -/
def slInit (input : Buf) (p0 step radius : ℕ) (out : Buf) : SlState :=
  { ti := p0, li := p0, ri := p0 + radius * step,
    val := (List.range radius).foldl
      (fun val j => fun ch => aAdd (val ch) (readPx input (p0 + j * step) ch))
      (fun ch => ((readPx input p0) ch).map (fun v => ((radius : ℤ) + 1) * v)),
    out := out }

theorem writtenCols_congr (input : Buf) (p0 step n radius : ℕ)
    (a b a' b' : ℕ) (base res : Buf) (ha : a = a') (hb : b = b')
    (h : WrittenCols input p0 step n radius a b base res) :
    WrittenCols input p0 step n radius a' b' base res := by
  subst ha
  subst hb
  exact h

theorem slideLine_spec (input : Buf) (p0 step n radius : ℕ) (out : Buf)
    (hstep : 1 ≤ step) (hn : radius + radius + 1 ≤ n)
    (hin : ∀ j < n, (p0 + j * step) * 4 + 3 < input.length)
    (hout : ∀ j < n, (p0 + j * step) * 4 + 3 < out.length) :
    (slideLine input p0 step n radius out).length = out.length ∧
    (∀ j, j < n → ∀ ch : Fin 4,
      (slideLine input p0 step n radius out)[pixIdx p0 step j ch]? =
        some (specByte input p0 step n radius j ch)) ∧
    (∀ i, (∀ j, j < n → ∀ ch : Fin 4, i ≠ pixIdx p0 step j ch) →
      (slideLine input p0 step n radius out)[i]? = out[i]?) := by
  have hsl : slideLine input p0 step n radius out =
      (loopN (slBody3 input (readPx input (p0 + (n - 1) * step))
          (radius + radius + 1) step) radius
        (loopN (slBody2 input (radius + radius + 1) step)
          (n - radius - (radius + 1))
          (loopN (slBody1 input (readPx input p0) (radius + radius + 1) step)
            (radius + 1) (slInit input p0 step radius out)))).out := rfl
  have c1ti : (slInit input p0 step radius out).ti = p0 + 0 * step := by
    simp [slInit]
  have c1ri : (slInit input p0 step radius out).ri = p0 + (0 + radius) * step := by
    simp [slInit]
  have c1val : ∀ ch : Fin 4, (slInit input p0 step radius out).val ch =
      some (windowSum input p0 step n radius (((0 : ℕ) : ℤ) - 1) ch) := by
    intro ch
    show ((List.range radius).foldl
      (fun val j => fun ch => aAdd (val ch) (readPx input (p0 + j * step) ch))
      (fun ch => ((readPx input p0) ch).map
        (fun v => ((radius : ℤ) + 1) * v))) ch = _
    have he : (((0 : ℕ) : ℤ) - 1) = (-1 : ℤ) := by norm_num
    rw [he]
    exact prime_val input p0 step n radius hn hin ch
  have c1len : (slInit input p0 step radius out).out.length = out.length := rfl
  obtain ⟨h1ti, h1li, h1ri, h1val, h1len, h1w⟩ :=
    loop1_spec input p0 step n radius out.length hstep hn hin hout
      (radius + 1) 0 _ (by omega) c1ti c1ri c1val c1len
  have c2ti : (loopN (slBody1 input (readPx input p0) (radius + radius + 1) step)
      (radius + 1) (slInit input p0 step radius out)).ti =
      p0 + (radius + 1 + 0) * step := by
    rw [h1ti]
    ring
  have c2li : (loopN (slBody1 input (readPx input p0) (radius + radius + 1) step)
      (radius + 1) (slInit input p0 step radius out)).li = p0 + 0 * step := by
    rw [h1li]
    simp [slInit]
  have c2ri : (loopN (slBody1 input (readPx input p0) (radius + radius + 1) step)
      (radius + 1) (slInit input p0 step radius out)).ri =
      p0 + (radius + radius + 1 + 0) * step := by
    rw [h1ri]
    ring
  have c2val : ∀ ch : Fin 4,
      (loopN (slBody1 input (readPx input p0) (radius + radius + 1) step)
        (radius + 1) (slInit input p0 step radius out)).val ch =
      some (windowSum input p0 step n radius ((radius + 0 : ℕ) : ℤ) ch) := by
    intro ch
    rw [h1val ch]
    have he : (((0 + (radius + 1) : ℕ) : ℤ) - 1) = (((radius + 0 : ℕ) : ℤ)) := by
      omega
    rw [he]
  obtain ⟨h2ti, h2li, h2ri, h2val, h2len, h2w⟩ :=
    loop2_spec input p0 step n radius out.length hstep hn hin hout
      (n - radius - (radius + 1)) 0 _ (by omega) c2ti c2li c2ri c2val h1len
  have c3ti : (loopN (slBody2 input (radius + radius + 1) step)
      (n - radius - (radius + 1))
      (loopN (slBody1 input (readPx input p0) (radius + radius + 1) step)
        (radius + 1) (slInit input p0 step radius out))).ti =
      p0 + (n - radius + 0) * step := by
    have he : n - radius + 0 =
        radius + 1 + (0 + (n - radius - (radius + 1))) := by omega
    rw [he]
    exact h2ti
  have c3li : (loopN (slBody2 input (radius + radius + 1) step)
      (n - radius - (radius + 1))
      (loopN (slBody1 input (readPx input p0) (radius + radius + 1) step)
        (radius + 1) (slInit input p0 step radius out))).li =
      p0 + (n - (radius + radius + 1) + 0) * step := by
    have he : n - (radius + radius + 1) + 0 =
        0 + (n - radius - (radius + 1)) := by omega
    rw [he]
    exact h2li
  have c3val : ∀ ch : Fin 4,
      (loopN (slBody2 input (radius + radius + 1) step)
        (n - radius - (radius + 1))
        (loopN (slBody1 input (readPx input p0) (radius + radius + 1) step)
          (radius + 1) (slInit input p0 step radius out))).val ch =
      some (windowSum input p0 step n radius
        ((n - radius - 1 + 0 : ℕ) : ℤ) ch) := by
    intro ch
    have he : n - radius - 1 + 0 =
        radius + (0 + (n - radius - (radius + 1))) := by omega
    rw [he]
    exact h2val ch
  obtain ⟨h3len, h3w⟩ :=
    loop3_spec input p0 step n radius out.length hstep hn hin hout
      radius 0 _ (by omega) c3ti c3li c3val h2len
  have hw12 := writtenCols_trans input p0 step n radius hstep 0 (radius + 1)
    (n - radius) (by omega) (by omega) out _ _
    (writtenCols_congr input p0 step n radius 0 (0 + (radius + 1)) 0 (radius + 1)
      _ _ rfl (by omega) h1w)
    (writtenCols_congr input p0 step n radius (radius + 1 + 0)
      (radius + 1 + 0 + (n - radius - (radius + 1))) (radius + 1) (n - radius)
      _ _ (by omega) (by omega) h2w)
  have hwAll := writtenCols_trans input p0 step n radius hstep 0 (n - radius) n
    (by omega) (by omega) out _ _ hw12
    (writtenCols_congr input p0 step n radius (n - radius + 0)
      (n - radius + 0 + radius) (n - radius) n _ _ (by omega) (by omega) h3w)
  obtain ⟨hflen, hfw, hfo⟩ := hwAll
  rw [hsl]
  refine ⟨hflen, ?_, ?_⟩
  · intro j hj ch
    exact hfw j (by omega) hj ch
  · intro i hi
    exact hfo i (fun j _ hj ch => hi j hj ch)

/-! ### From one line to a whole pass

`boxBlurHorizontal` runs `slideLine` over every row (line start `y·width`,
stride 1, length `width`); `boxBlurVertical` over every column (line start
`x`, stride `width`, length `height`).  Distinct lines write disjoint byte
ranges, so a fold over the lines is characterised line by line. -/

theorem row_idx_lt (width height y j : ℕ) (hy : y < height) (hj : j < width) :
    (y * width + j * 1) * 4 + 3 < width * height * 4 := by
  have h1 : (y + 1) * width ≤ height * width :=
    Nat.mul_le_mul_right width (by omega)
  have h2 : (y + 1) * width = y * width + width := by ring
  have h3 : width * height = height * width := Nat.mul_comm width height
  omega

theorem col_idx_lt (width height x j : ℕ) (hx : x < width) (hj : j < height) :
    (x + j * width) * 4 + 3 < width * height * 4 := by
  have h1 : (j + 1) * width ≤ height * width :=
    Nat.mul_le_mul_right width (by omega)
  have h2 : (j + 1) * width = j * width + width := by ring
  have h3 : width * height = height * width := Nat.mul_comm width height
  omega

theorem pixIdx_row_ne (width y y' x x' : ℕ) (ch ch' : Fin 4) (hyy : y ≠ y')
    (hx : x < width) (hx' : x' < width) :
    pixIdx (y * width) 1 x ch ≠ pixIdx (y' * width) 1 x' ch' := by
  have hw : 0 < width := by omega
  intro h
  simp only [pixIdx] at h
  have hc := ch.isLt
  have hc' := ch'.isLt
  have hcomm : x + y * width = x' + y' * width := by omega
  have hd1 : (x + y * width) / width = x / width + y :=
    Nat.add_mul_div_right x y hw
  have hd2 : (x' + y' * width) / width = x' / width + y' :=
    Nat.add_mul_div_right x' y' hw
  have hx0 : x / width = 0 := Nat.div_eq_of_lt hx
  have hx0' : x' / width = 0 := Nat.div_eq_of_lt hx'
  rw [hcomm] at hd1
  omega

theorem pixIdx_col_ne (width x x' j j' : ℕ) (ch ch' : Fin 4) (hxx : x ≠ x')
    (hx : x < width) (hx' : x' < width) :
    pixIdx x width j ch ≠ pixIdx x' width j' ch' := by
  have hw : 0 < width := by omega
  intro h
  simp only [pixIdx] at h
  have hc := ch.isLt
  have hc' := ch'.isLt
  have h2 : x + j * width = x' + j' * width := by omega
  have hm1 : (x + j * width) % width = x % width :=
    Nat.add_mul_mod_self_right x j width
  have hm2 : (x' + j' * width) % width = x' % width :=
    Nat.add_mul_mod_self_right x' j' width
  have hx0 : x % width = x := Nat.mod_eq_of_lt hx
  have hx0' : x' % width = x' := Nat.mod_eq_of_lt hx'
  rw [h2] at hm1
  omega

theorem cover_rows (width height : ℕ) (hw : 0 < width) :
    ∀ i, i < width * height * 4 →
      ∃ y, y < height ∧ ∃ x, x < width ∧ ∃ ch : Fin 4,
        i = pixIdx (y * width) 1 x ch := by
  intro i hi
  have hr4 : i % 4 < 4 := Nat.mod_lt _ (by omega)
  have hq : width * (i / 4 / width) + i / 4 % width = i / 4 :=
    Nat.div_add_mod (i / 4) width
  have hxw : i / 4 % width < width := Nat.mod_lt _ hw
  have hyh : i / 4 / width < height := by
    rw [Nat.div_lt_iff_lt_mul hw]
    have h3 : width * height = height * width := Nat.mul_comm width height
    omega
  refine ⟨i / 4 / width, hyh, i / 4 % width, hxw, ⟨i % 4, hr4⟩, ?_⟩
  show i = (i / 4 / width * width + i / 4 % width * 1) * 4 + i % 4
  have hcomm : i / 4 / width * width = width * (i / 4 / width) :=
    Nat.mul_comm _ _
  omega

theorem cover_cols (width height : ℕ) (hw : 0 < width) :
    ∀ i, i < width * height * 4 →
      ∃ x, x < width ∧ ∃ j, j < height ∧ ∃ ch : Fin 4,
        i = pixIdx x width j ch := by
  intro i hi
  have hr4 : i % 4 < 4 := Nat.mod_lt _ (by omega)
  have hq : width * (i / 4 / width) + i / 4 % width = i / 4 :=
    Nat.div_add_mod (i / 4) width
  have hxw : i / 4 % width < width := Nat.mod_lt _ hw
  have hyh : i / 4 / width < height := by
    rw [Nat.div_lt_iff_lt_mul hw]
    have h3 : width * height = height * width := Nat.mul_comm width height
    omega
  refine ⟨i / 4 % width, hxw, i / 4 / width, hyh, ⟨i % 4, hr4⟩, ?_⟩
  show i = (i / 4 % width + i / 4 / width * width) * 4 + i % 4
  have hcomm : i / 4 / width * width = width * (i / 4 / width) :=
    Nat.mul_comm _ _
  omega

theorem linesFold_spec (input : Buf) (step n radius L : ℕ)
    (hstep : 1 ≤ step) (hn : radius + radius + 1 ≤ n)
    (hinL : input.length = L) :
    ∀ (ps : List ℕ) (o : Buf),
      (∀ p0 ∈ ps, ∀ j, j < n → (p0 + j * step) * 4 + 3 < L) →
      List.Pairwise (fun p0 p0' => ∀ j, j < n → ∀ j', j' < n →
        ∀ ch ch' : Fin 4, pixIdx p0 step j ch ≠ pixIdx p0' step j' ch') ps →
      o.length = L →
      (ps.foldl (fun o p0 => slideLine input p0 step n radius o) o).length = L ∧
      (∀ p0 ∈ ps, ∀ j, j < n → ∀ ch : Fin 4,
        (ps.foldl (fun o p0 => slideLine input p0 step n radius o) o)[pixIdx
          p0 step j ch]? = some (specByte input p0 step n radius j ch)) ∧
      (∀ i, (∀ p0 ∈ ps, ∀ j, j < n → ∀ ch : Fin 4, i ≠ pixIdx p0 step j ch) →
        (ps.foldl (fun o p0 => slideLine input p0 step n radius o) o)[i]? =
          o[i]?) := by
  intro ps
  induction ps with
  | nil =>
    intro o hbound hpw hlen
    refine ⟨hlen, ?_, ?_⟩
    · intro p0 hp0
      simp at hp0
    · intro i _
      rfl
  | cons p ps ih =>
    intro o hbound hpw hlen
    have hin' : ∀ j < n, (p + j * step) * 4 + 3 < input.length := by
      rw [hinL]
      exact hbound p (List.mem_cons_self p ps)
    have hout' : ∀ j < n, (p + j * step) * 4 + 3 < o.length := by
      rw [hlen]
      exact hbound p (List.mem_cons_self p ps)
    obtain ⟨hslen, hsw, hso⟩ :=
      slideLine_spec input p step n radius o hstep hn hin' hout'
    have hlen' : (slideLine input p step n radius o).length = L := by
      rw [hslen, hlen]
    obtain ⟨ihlen, ihw, iho⟩ :=
      ih (slideLine input p step n radius o)
        (fun p0 hp0 => hbound p0 (List.mem_cons_of_mem _ hp0))
        hpw.of_cons hlen'
    have hhead := (List.pairwise_cons.mp hpw).1
    refine ⟨?_, ?_, ?_⟩
    · rw [List.foldl_cons]
      exact ihlen
    · intro p0 hp0 j hj ch
      rw [List.foldl_cons]
      rcases List.mem_cons.mp hp0 with rfl | hmem
      · rw [iho (pixIdx p0 step j ch)
          (fun p0' hp0' j' hj' ch' => hhead p0' hp0' j hj j' hj' ch ch')]
        exact hsw j hj ch
      · exact ihw p0 hmem j hj ch
    · intro i hi
      rw [List.foldl_cons,
        iho i (fun p0' hp0' j' hj' ch' =>
          hi p0' (List.mem_cons_of_mem _ hp0') j' hj' ch'),
        hso i (fun j hj ch => hi p (List.mem_cons_self p ps) j hj ch)]

theorem boxBlurHorizontal_char (input out : Buf) (width height radius : ℕ)
    (hr : radius + radius + 1 ≤ width)
    (hin : input.length = width * height * 4)
    (hout : out.length = width * height * 4) :
    (boxBlurHorizontal input out width height radius).length =
      width * height * 4 ∧
    (∀ y, y < height → ∀ x, x < width → ∀ ch : Fin 4,
      (boxBlurHorizontal input out width height radius)[pixIdx
        (y * width) 1 x ch]? =
        some (specByte input (y * width) 1 width radius x ch)) := by
  have hfold : boxBlurHorizontal input out width height radius =
      ((List.range height).map (fun y => y * width)).foldl
        (fun o p0 => slideLine input p0 1 width radius o) out := by
    rw [List.foldl_map]
    rfl
  have hbound : ∀ p0 ∈ (List.range height).map (fun y => y * width),
      ∀ j, j < width → (p0 + j * 1) * 4 + 3 < width * height * 4 := by
    intro p0 hp0 j hj
    obtain ⟨y, hy, rfl⟩ := List.mem_map.mp hp0
    exact row_idx_lt width height y j (List.mem_range.mp hy) hj
  have hpw : List.Pairwise (fun p0 p0' => ∀ j, j < width → ∀ j', j' < width →
      ∀ ch ch' : Fin 4, pixIdx p0 1 j ch ≠ pixIdx p0' 1 j' ch')
      ((List.range height).map (fun y => y * width)) := by
    rw [List.pairwise_map]
    refine List.Pairwise.imp ?_ (List.pairwise_lt_range height)
    intro y y' hyy j hj j' hj' ch ch'
    exact pixIdx_row_ne width y y' j j' ch ch' (by omega) hj hj'
  obtain ⟨hlen, hw, _⟩ :=
    linesFold_spec input 1 width radius (width * height * 4) (by omega) hr hin
      ((List.range height).map (fun y => y * width)) out hbound hpw hout
  refine ⟨by rw [hfold]; exact hlen, ?_⟩
  intro y hy x hx ch
  rw [hfold]
  exact hw (y * width)
    (List.mem_map.mpr ⟨y, List.mem_range.mpr hy, rfl⟩) x hx ch

theorem boxBlurVertical_char (input out : Buf) (width height radius : ℕ)
    (hr : radius + radius + 1 ≤ height) (hw0 : 0 < width)
    (hin : input.length = width * height * 4)
    (hout : out.length = width * height * 4) :
    (boxBlurVertical input out width height radius).length =
      width * height * 4 ∧
    (∀ x, x < width → ∀ j, j < height → ∀ ch : Fin 4,
      (boxBlurVertical input out width height radius)[pixIdx x width j ch]? =
        some (specByte input x width height radius j ch)) := by
  have hfold : boxBlurVertical input out width height radius =
      (List.range width).foldl
        (fun o p0 => slideLine input p0 width height radius o) out := rfl
  have hbound : ∀ p0 ∈ List.range width,
      ∀ j, j < height → (p0 + j * width) * 4 + 3 < width * height * 4 := by
    intro p0 hp0 j hj
    exact col_idx_lt width height p0 j (List.mem_range.mp hp0) hj
  have hpw : List.Pairwise (fun p0 p0' => ∀ j, j < height → ∀ j', j' < height →
      ∀ ch ch' : Fin 4, pixIdx p0 width j ch ≠ pixIdx p0' width j' ch')
      (List.range width) := by
    refine List.Pairwise.imp_of_mem ?_ (List.pairwise_lt_range width)
    intro x x' hxm hxm' hxx j hj j' hj' ch ch'
    exact pixIdx_col_ne width x x' j j' ch ch' (by omega)
      (List.mem_range.mp hxm) (List.mem_range.mp hxm')
  obtain ⟨hlen, hws, _⟩ :=
    linesFold_spec input width height radius (width * height * 4) hw0 hr hin
      (List.range width) out hbound hpw hout
  refine ⟨by rw [hfold]; exact hlen, ?_⟩
  intro x hx j hj ch
  rw [hfold]
  exact hws x (List.mem_range.mpr hx) j hj ch

/-! ### Row locality of the specified horizontal-pass value

The specified value of a row-`y` output pixel reads the input only through
`lineByte`, whose position is clamped into `[0, width − 1]` of row `y`: it is
a function of row `y`'s bytes alone. -/

theorem lineClamp_lt (n : ℕ) (z : ℤ) (hn : 1 ≤ n) : lineClamp n z < n := by
  unfold lineClamp
  omega

theorem lineByte_row_local (input input' : Buf) (y width : ℕ) (hw : 1 ≤ width)
    (hagree : ∀ i, i < width * 4 →
      input'[y * width * 4 + i]? = input[y * width * 4 + i]?)
    (ch : Fin 4) (z : ℤ) :
    lineByte input' (y * width) 1 width ch z =
      lineByte input (y * width) 1 width ch z := by
  unfold lineByte
  have hc : lineClamp width z < width := lineClamp_lt width z hw
  have hcv := ch.isLt
  have hidx : (y * width + lineClamp width z * 1) * 4 + ch.val =
      y * width * 4 + (lineClamp width z * 4 + ch.val) := by ring
  rw [hidx, hagree (lineClamp width z * 4 + ch.val) (by omega)]

theorem specByte_row_local (input input' : Buf) (y width radius x : ℕ)
    (hw : 1 ≤ width)
    (hagree : ∀ i, i < width * 4 →
      input'[y * width * 4 + i]? = input[y * width * 4 + i]?) (ch : Fin 4) :
    specByte input' (y * width) 1 width radius x ch =
      specByte input (y * width) 1 width radius x ch := by
  unfold specByte windowSum
  congr 2
  congr 1
  refine List.map_congr_left ?_
  intro t _
  exact lineByte_row_local input input' y width hw hagree ch ((x : ℤ) - radius + t)

/-- **C5.**  The horizontal box-blur pass, for a window that fits in a row
(`2·radius + 1 ≤ width`): the pass preserves the buffer length, and the byte
written for channel `ch` of the row-`y`, column-`x` pixel is exactly the
clamp-rounded average of the `2·radius + 1` window bytes of **row `y`**,
window positions outside `[0, width − 1]` repeating the row's first or last
pixel (`lineByte` clamps through `lineClamp`, never wrapping to another row
or the opposite edge).  The specified value is a function of row `y`'s bytes
only: replacing the input by any buffer that agrees on row `y` leaves it
unchanged.  Positions `z ≤ 0` of the window read the row's first pixel and
positions `z ≥ width − 1` its last. -/
theorem boxBlurHorizontal_spec (input out : Buf) (width height radius : ℕ)
    (hr : radius + radius + 1 ≤ width)
    (hin : input.length = width * height * 4)
    (hout : out.length = width * height * 4) :
    (boxBlurHorizontal input out width height radius).length = out.length ∧
    (∀ y, y < height → ∀ x, x < width → ∀ ch : Fin 4,
      (boxBlurHorizontal input out width height radius)[(y * width + x) * 4 +
          ch.val]? =
        some (clampByte
          (some (windowSum input (y * width) 1 width radius (x : ℤ) ch))
          (radius + radius + 1))) ∧
    (∀ y radius' x, ∀ ch : Fin 4, ∀ input' : Buf,
      (∀ i, i < width * 4 →
        input'[y * width * 4 + i]? = input[y * width * 4 + i]?) →
      specByte input' (y * width) 1 width radius' x ch =
        specByte input (y * width) 1 width radius' x ch) ∧
    (∀ y, ∀ ch : Fin 4, ∀ z : ℤ,
      (z ≤ 0 → lineByte input (y * width) 1 width ch z =
        lineByte input (y * width) 1 width ch 0) ∧
      ((width : ℤ) - 1 ≤ z → lineByte input (y * width) 1 width ch z =
        lineByte input (y * width) 1 width ch ((width : ℤ) - 1))) := by
  have hw : 1 ≤ width := by omega
  obtain ⟨hlen, hwr⟩ :=
    boxBlurHorizontal_char input out width height radius hr hin hout
  refine ⟨by rw [hlen, hout], ?_, ?_, ?_⟩
  · intro y hy x hx ch
    have hpi : pixIdx (y * width) 1 x ch = (y * width + x) * 4 + ch.val := by
      simp [pixIdx]
    have h := hwr y hy x hx ch
    rw [hpi] at h
    exact h
  · intro y radius' x ch input' hagree
    exact specByte_row_local input input' y width radius' x hw hagree ch
  · intro y ch z
    constructor
    · intro hz
      unfold lineByte
      rw [lineClamp_of_nonpos width z hz, lineClamp_of_nonpos width 0 le_rfl]
    · intro hz
      unfold lineByte
      rw [lineClamp_of_ge width z hw hz, lineClamp_of_ge width _ hw le_rfl]

/-- **C5, witness.**  At `width = 3`, `height = 2`, `radius = 1`, a 24-byte
input and output buffer satisfy the window-fit and length hypotheses, and
the pass preserves the length. -/
theorem boxBlurHorizontal_spec_witness :
    (1 + 1 + 1 ≤ 3) ∧ (List.replicate 24 (5 : ℕ)).length = 3 * 2 * 4 ∧
    (List.replicate 24 (0 : ℕ)).length = 3 * 2 * 4 ∧
    (boxBlurHorizontal (List.replicate 24 5) (List.replicate 24 0)
      3 2 1).length = (List.replicate 24 (0 : ℕ)).length :=
  ⟨by decide, by decide, by decide,
    (boxBlurHorizontal_spec (List.replicate 24 5) (List.replicate 24 0) 3 2 1
      (by decide) (by decide) (by decide)).1⟩

/-! ### Uniform buffers are fixed by the blur (C6)

On a buffer all of whose samples equal `c ≤ 255`, every clamped window sums
to `(2·radius+1)·c`, the rounded average is exactly `c`, and — as every byte
position of the buffer is written by some line of each pass — both passes,
hence `boxBlur` and `applyBlur`, return the uniform buffer itself. -/

theorem roundHalfEven_exact (d : ℕ) (c : ℤ) (hd : 1 ≤ d) :
    roundHalfEven ((d : ℤ) * c) d = c := by
  have hdz : ((d : ℤ)) ≠ 0 := by omega
  have hq : Int.fdiv ((d : ℤ) * c) d = c := Int.mul_fdiv_cancel_left c hdz
  simp only [roundHalfEven, hq]
  have h0 : (d : ℤ) * c - c * d = 0 := by ring
  rw [h0]
  have hdp : (0 : ℤ) < d := by exact_mod_cast hd
  simp [hdp]

theorem lineByte_uniform (L c p0 step n : ℕ) (ch : Fin 4) (z : ℤ)
    (hidx : (p0 + lineClamp n z * step) * 4 + ch.val < L) :
    lineByte (List.replicate L c) p0 step n ch z = (c : ℤ) := by
  unfold lineByte
  rw [List.getElem?_replicate, if_pos hidx]
  rfl

theorem windowSum_uniform (L c p0 step n radius : ℕ) (x : ℤ) (ch : Fin 4)
    (hn : 1 ≤ n) (hb : ∀ j, j < n → (p0 + j * step) * 4 + 3 < L) :
    windowSum (List.replicate L c) p0 step n radius x ch =
      ((radius + radius + 1 : ℕ) : ℤ) * c := by
  unfold windowSum
  have hmap : ∀ t ∈ List.range (radius + radius + 1),
      lineByte (List.replicate L c) p0 step n ch (x - radius + t) = (c : ℤ) := by
    intro t _
    refine lineByte_uniform L c p0 step n ch _ ?_
    have hcl : lineClamp n (x - radius + t) < n :=
      lineClamp_lt n _ hn
    have := hb (lineClamp n (x - radius + t)) hcl
    have hcv := ch.isLt
    omega
  rw [List.map_congr_left hmap]
  rw [List.map_const']
  rw [List.sum_replicate, List.length_range, nsmul_eq_mul]

theorem specByte_uniform (L c p0 step n radius : ℕ) (j : ℕ) (ch : Fin 4)
    (hc : c ≤ 255) (hn : 1 ≤ n)
    (hb : ∀ j, j < n → (p0 + j * step) * 4 + 3 < L) :
    specByte (List.replicate L c) p0 step n radius j ch = c := by
  unfold specByte clampByte
  rw [windowSum_uniform L c p0 step n radius j ch hn hb]
  show (0 ⊔ 255 ⊓ roundHalfEven (((radius + radius + 1 : ℕ) : ℤ) * c)
    (radius + radius + 1)).toNat = c
  rw [roundHalfEven_exact (radius + radius + 1) (c : ℤ) (by omega)]
  omega

theorem boxBlurHorizontal_uniform (width height radius c : ℕ) (out : Buf)
    (hr : radius + radius + 1 ≤ width) (hc : c ≤ 255)
    (hout : out.length = width * height * 4) :
    boxBlurHorizontal (List.replicate (width * height * 4) c) out
        width height radius =
      List.replicate (width * height * 4) c := by
  have hw : 0 < width := by omega
  obtain ⟨hlen, hwr⟩ := boxBlurHorizontal_char
    (List.replicate (width * height * 4) c) out width height radius hr
    (by rw [List.length_replicate]) hout
  apply List.ext_getElem?
  intro i
  rcases Nat.lt_or_ge i (width * height * 4) with hi | hi
  · obtain ⟨y, hy, x, hx, ch, rfl⟩ := cover_rows width height hw i hi
    rw [hwr y hy x hx ch]
    rw [List.getElem?_replicate, if_pos hi]
    have hb : ∀ j, j < width →
        (y * width + j * 1) * 4 + 3 < width * height * 4 :=
      fun j hj => row_idx_lt width height y j hy hj
    rw [specByte_uniform (width * height * 4) c (y * width) 1 width radius x
      ch hc (by omega) hb]
  · rw [List.getElem?_eq_none (by rw [hlen]; exact hi),
      List.getElem?_eq_none (by rw [List.length_replicate]; exact hi)]

theorem boxBlurVertical_uniform (width height radius c : ℕ) (out : Buf)
    (hr : radius + radius + 1 ≤ height) (hw : 0 < width) (hc : c ≤ 255)
    (hout : out.length = width * height * 4) :
    boxBlurVertical (List.replicate (width * height * 4) c) out
        width height radius =
      List.replicate (width * height * 4) c := by
  obtain ⟨hlen, hwr⟩ := boxBlurVertical_char
    (List.replicate (width * height * 4) c) out width height radius hr hw
    (by rw [List.length_replicate]) hout
  apply List.ext_getElem?
  intro i
  rcases Nat.lt_or_ge i (width * height * 4) with hi | hi
  · obtain ⟨x, hx, j, hj, ch, rfl⟩ := cover_cols width height hw i hi
    rw [hwr x hx j hj ch]
    rw [List.getElem?_replicate, if_pos hi]
    have hb : ∀ j, j < height →
        (x + j * width) * 4 + 3 < width * height * 4 :=
      fun j hj => col_idx_lt width height x j hx hj
    rw [specByte_uniform (width * height * 4) c x width height radius j
      ch hc (by omega) hb]
  · rw [List.getElem?_eq_none (by rw [hlen]; exact hi),
      List.getElem?_eq_none (by rw [List.length_replicate]; exact hi)]

theorem boxBlur_uniform (width height radius c : ℕ) (target : Buf)
    (hrw : radius + radius + 1 ≤ width) (hrh : radius + radius + 1 ≤ height)
    (hc : c ≤ 255) (htl : target.length = width * height * 4) :
    boxBlur (List.replicate (width * height * 4) c) target
        width height radius =
      List.replicate (width * height * 4) c := by
  show boxBlurVertical
      (boxBlurHorizontal (List.replicate (width * height * 4) c)
        (List.replicate (List.replicate (width * height * 4) c).length 0)
        width height radius)
      target width height radius = _
  rw [List.length_replicate]
  rw [boxBlurHorizontal_uniform width height radius c _ hrw hc
    (by rw [List.length_replicate])]
  exact boxBlurVertical_uniform width height radius c target hrh (by omega)
    hc htl

theorem getD_zero_mem_or (l : List ℕ) (i : ℕ) :
    l.getD i 0 ∈ l ∨ l.getD i 0 = 0 := by
  rcases Nat.lt_or_ge i l.length with hi | hi
  · left
    rw [List.getD_eq_getElem?_getD, List.getElem?_eq_getElem hi]
    exact List.getElem_mem hi
  · right
    rw [List.getD_eq_getElem?_getD, List.getElem?_eq_none hi]
    rfl

/-- **C6.**  `applyBlur` is the identity on uniform buffers — provided each
of the three box radii produced by `boxesForGaussian` fits in both
dimensions (`2·b + 1 ≤ width` and `≤ height`).  Without that proviso the
claim fails: see the 1×1 counterexample. -/
theorem applyBlur_uniform (width height : ℕ) (sigma : ℚ) (c : ℕ)
    (hw : 1 ≤ width) (hh : 1 ≤ height) (hc : c ≤ 255)
    (hboxes : ∀ b ∈ boxesForGaussian sigma 3,
      b + b + 1 ≤ width ∧ b + b + 1 ≤ height) :
    applyBlur (List.replicate (width * height * 4) c) width height sigma =
      List.replicate (width * height * 4) c := by
  have hfit : ∀ i : ℕ, (boxesForGaussian sigma 3).getD i 0 +
      (boxesForGaussian sigma 3).getD i 0 + 1 ≤ width ∧
      (boxesForGaussian sigma 3).getD i 0 +
      (boxesForGaussian sigma 3).getD i 0 + 1 ≤ height := by
    intro i
    rcases getD_zero_mem_or (boxesForGaussian sigma 3) i with hm | hz
    · exact hboxes _ hm
    · rw [hz]
      omega
  show boxBlur
      (boxBlur
        (boxBlur (List.replicate (width * height * 4) c)
          (List.replicate (List.replicate (width * height * 4) c).length 0)
          width height ((boxesForGaussian sigma 3).getD 0 0))
        (List.replicate (width * height * 4) c)
        width height ((boxesForGaussian sigma 3).getD 1 0))
      (boxBlur (List.replicate (width * height * 4) c)
        (List.replicate (List.replicate (width * height * 4) c).length 0)
        width height ((boxesForGaussian sigma 3).getD 0 0))
      width height ((boxesForGaussian sigma 3).getD 2 0) = _
  rw [List.length_replicate]
  rw [boxBlur_uniform width height ((boxesForGaussian sigma 3).getD 0 0) c _
    (hfit 0).1 (hfit 0).2 hc (by rw [List.length_replicate])]
  rw [boxBlur_uniform width height ((boxesForGaussian sigma 3).getD 1 0) c _
    (hfit 1).1 (hfit 1).2 hc (by rw [List.length_replicate])]
  exact boxBlur_uniform width height ((boxesForGaussian sigma 3).getD 2 0) c _
    (hfit 2).1 (hfit 2).2 hc (by rw [List.length_replicate])

/-! ### Concrete radii for `sigma = 1`, and the C6 counterexample -/

theorem sqrt_five : Nat.sqrt 5 = 2 := by
  have hle : 2 ≤ Nat.sqrt 5 := by
    rw [Nat.le_sqrt]
    norm_num
  have hlt : Nat.sqrt 5 < 3 := by
    rw [Nat.sqrt_lt]
    norm_num
  omega

theorem ratFloorSqrt_five : ratFloorSqrt 5 = 2 := by
  unfold ratFloorSqrt
  norm_num
  exact sqrt_five

theorem bfgWl_one : bfgWl 1 3 = 1 := by
  have h1 : bfgWIdeal 1 3 = 5 := by
    unfold bfgWIdeal
    norm_num
  simp only [bfgWl, h1, ratFloorSqrt_five]
  norm_num

theorem boxes13 : boxesForGaussian 1 3 = [0, 0, 1] := by
  have hm : bfgMIdeal 1 3 = 3 / 2 := by
    unfold bfgMIdeal
    rw [bfgWl_one]
    norm_num
  have hj : jsRound (bfgMIdeal 1 3) = 2 := by
    rw [hm]
    unfold jsRound
    have : (3 : ℚ) / 2 + 1 / 2 = 2 := by norm_num
    rw [this]
    norm_num
  simp only [boxesForGaussian, bfgWl_one, hj]
  decide

/-- **C6, counterexample.**  A 1×1 uniform white buffer (all samples 255)
with `sigma = 1`: the third box radius is 1, whose window does not fit in
the 1-pixel line, the running sum reads out of bounds (`NaN`), and the
stored bytes collapse to 0 — `applyBlur` is not the identity on this
uniform buffer, refuting the unrestricted claim. -/
theorem applyBlur_uniform_cx :
    (1 : ℕ) ≥ 1 ∧ (255 : ℕ) ≤ 255 ∧
    applyBlur (List.replicate (1 * 1 * 4) 255) 1 1 1 ≠
      List.replicate (1 * 1 * 4) 255 := by
  refine ⟨le_rfl, le_rfl, ?_⟩
  have hg0 : (boxesForGaussian 1 3).getD 0 0 = 0 := by rw [boxes13]; rfl
  have hg1 : (boxesForGaussian 1 3).getD 1 0 = 0 := by rw [boxes13]; rfl
  have hg2 : (boxesForGaussian 1 3).getD 2 0 = 1 := by rw [boxes13]; rfl
  have hA : applyBlur (List.replicate (1 * 1 * 4) 255) 1 1 1 =
      boxBlur
        (boxBlur
          (boxBlur (List.replicate 4 255) (List.replicate 4 0) 1 1 0)
          (List.replicate 4 255) 1 1 0)
        (boxBlur (List.replicate 4 255) (List.replicate 4 0) 1 1 0)
        1 1 1 := by
    show boxBlur
        (boxBlur
          (boxBlur (List.replicate 4 255)
            (List.replicate (List.replicate 4 (255 : ℕ)).length 0)
            1 1 ((boxesForGaussian 1 3).getD 0 0))
          (List.replicate 4 255) 1 1 ((boxesForGaussian 1 3).getD 1 0))
        (boxBlur (List.replicate 4 255)
          (List.replicate (List.replicate 4 (255 : ℕ)).length 0)
          1 1 ((boxesForGaussian 1 3).getD 0 0))
        1 1 ((boxesForGaussian 1 3).getD 2 0) = _
    rw [hg0, hg1, hg2, List.length_replicate]
  rw [hA]
  decide

/-- **C6, witness.**  A 3×3 uniform buffer of value 7 with `sigma = 1`: all
three box radii (0, 0, 1) fit, and `applyBlur` returns the buffer
unchanged. -/
theorem applyBlur_uniform_witness :
    (∀ b ∈ boxesForGaussian 1 3, b + b + 1 ≤ 3 ∧ b + b + 1 ≤ 3) ∧
    applyBlur (List.replicate (3 * 3 * 4) 7) 3 3 1 =
      List.replicate (3 * 3 * 4) 7 := by
  have hbx : ∀ b ∈ boxesForGaussian 1 3, b + b + 1 ≤ 3 ∧ b + b + 1 ≤ 3 := by
    rw [boxes13]
    intro b hb
    fin_cases hb <;> exact ⟨by norm_num, by norm_num⟩
  exact ⟨hbx, applyBlur_uniform 3 3 1 7 (by norm_num) (by norm_num)
    (by norm_num) hbx⟩

end Frameify
